import Mathlib

/-!
# simonsays: a verification development

A shallow embedding of `cmd/simonsays/simonsays.go` and proofs about it.

Go strings are sequences of bytes.  They are modelled as lists of `Char`, each
element standing for one code unit; every theorem below quantifies over all
such lists, hence also over all byte sequences, and every concrete input is
plain ASCII, where bytes and characters coincide.
-/

set_option maxRecDepth 20000

namespace Simonsays

/-- A Go string, as the list of its code units. -/
abbrev GoString := List Char

/-! ## Package `strings` -/

/-- Go `strings.HasPrefix`. -/
def HasPrefix (s pfx : GoString) : Bool := pfx.isPrefixOf s

/-- Go `strings.HasSuffix`. -/
def HasSuffix (s sfx : GoString) : Bool := sfx.isSuffixOf s

/-- Go `strings.TrimPrefix`: `s` without the leading `pfx`, or `s` itself. -/
def TrimPrefix (s pfx : GoString) : GoString :=
  if HasPrefix s pfx then s.drop pfx.length else s

/-- Go `strings.TrimSuffix`: `s` without the trailing `sfx`, or `s` itself. -/
def TrimSuffix (s sfx : GoString) : GoString :=
  if HasSuffix s sfx then s.take (s.length - sfx.length) else s

/-- Go `strings.Index`: the position of the first instance of `substr` in `s`;
`none` stands for the result `-1`. -/
def Index (s substr : GoString) : Option Nat :=
  if substr.isPrefixOf s then some 0
  else
    match s with
    | [] => none
    | _ :: t => (Index t substr).map (· + 1)

/-- Go `strings.Contains`: `Index(s, substr) >= 0`. -/
def Contains (s substr : GoString) : Bool := (Index s substr).isSome

/-- The loop of Go `strings.Count` for a non-empty `substr`: repeatedly find the
next instance and continue after it.  The fuel bounds the number of rounds. -/
def countLoop (substr : GoString) : Nat → GoString → Nat
  | 0, _ => 0
  | fuel + 1, s =>
    match Index s substr with
    | none => 0
    | some i => 1 + countLoop substr fuel (s.drop (i + substr.length))

/-- Go `strings.Count`: the number of non-overlapping instances of `substr`.
For the empty `substr` the library answers one more than the number of runes,
each element counting as one rune here. -/
def Count (s substr : GoString) : Nat :=
  if substr = [] then s.length + 1 else countLoop substr (s.length + 1) s

/-- The replacement loop of Go `strings.Replace`, on the part `rest = s[start:]`
not yet written: round `i` of `n` copies the text up to the next instance of
`old`, writes `new` and continues after the instance. -/
def replaceLoop (old new : GoString) : Nat → Nat → GoString → GoString
  | 0, _, rest => rest
  | n + 1, i, rest =>
    if old = [] then
      let j := if 0 < i then min 1 rest.length else 0
      rest.take j ++ new ++ replaceLoop old new n (i + 1) (rest.drop j)
    else
      match Index rest old with
      | some j => rest.take j ++ new ++ replaceLoop old new n (i + 1) (rest.drop (j + old.length))
      | none => rest

/-- Go `strings.ReplaceAll(s, old, new)`, that is `Replace(s, old, new, -1)`:
every non-overlapping instance of `old`, found from left to right, is replaced
by `new`. -/
def ReplaceAll (s old new : GoString) : GoString :=
  if old = new then s
  else
    let m := Count s old
    if m = 0 then s else replaceLoop old new m 0 s

/-! ## Package `path/filepath` (Unix) -/

/-- The loop of Go `filepath.Ext`, walking from the last element of the path
towards the first: `before` holds the elements still to visit (nearest first),
`after` the ones already passed.  It stops at a path separator. -/
def extScan : List Char → GoString → GoString
  | [], _ => []
  | c :: before, after =>
    if c = '/' then []
    else if c = '.' then c :: after
    else extScan before (c :: after)

/-- Go `filepath.Ext`: the suffix beginning at the final dot in the final element
of `path`; empty if there is no dot. -/
def Ext (path : GoString) : GoString := extScan path.reverse []

/-! ## Package `fmt`: the verb `%d` -/

/-- The character of a decimal digit. -/
def digitChar (d : Nat) : Char := Char.ofNat (48 + d)

/-- The decimal digits of `n`, most significant first, written in front of
`acc`.  The fuel bounds the number of digits. -/
def formatDigits : Nat → Nat → GoString → GoString
  | 0, _, acc => acc
  | fuel + 1, n, acc =>
    let acc1 := digitChar (n % 10) :: acc
    if n / 10 = 0 then acc1 else formatDigits fuel (n / 10) acc1

/-- The decimal numeral of a natural number, without leading zeros. -/
def formatNat (n : Nat) : GoString := formatDigits (n + 1) n []

/-- Go `fmt.Sprintf("%d", z)`: the decimal numeral, with `-` for negatives. -/
def formatInt (z : Int) : GoString :=
  if z < 0 then '-' :: formatNat z.natAbs else formatNat z.natAbs

/-- Go `int` on a 64-bit platform: the value of an arithmetic result after
two's complement wrap-around into `[-2^63, 2^63)`. -/
def wrapInt (z : Int) : Int := (z + 2 ^ 63) % 2 ^ 64 - 2 ^ 63

/-! ## sortbysize: the size category -/

/-- The `smallThreshold` of `SortBySizeCommand.Execute`. -/
def smallThreshold : Int := 1024 * 1024

/-- The `mediumThreshold` of `SortBySizeCommand.Execute`. -/
def mediumThreshold : Int := 10 * 1024 * 1024

/-- The `sizeCategory` chosen by `SortBySizeCommand.Execute` for a file of
`size` bytes (`fileInfo.Size()`, an `int64`). -/
def sizeCategory (size : Int) : GoString :=
  if size < smallThreshold then "small".toList
  else if size < mediumThreshold then "medium".toList
  else "large".toList

/-! ## sortbytype: the extension category -/

/-- The folder name `ext` chosen by `SortByTypeCommand.Execute` for a file
called `name` (`d.Name()`). -/
def typeCategory (name : GoString) : GoString :=
  let ext := TrimPrefix (Ext name) ".".toList
  if ext = [] then "other".toList else ext

/-! ## bulkrename: the new file name -/

/-- The value of `newFilename` in `BulkRenameCommand.Execute` after the three
`strings.ReplaceAll` calls, for the file called `name` at position `i` of
`files`: `{index}` first, then `{name}`, then `{ext}`.  The sum `startNum+i`
is a Go `int`. -/
def substituted (pattern : GoString) (startNum : Int) (i : Nat) (name : GoString) : GoString :=
  let ext := Ext name
  let base := TrimSuffix name ext
  let newFilename := ReplaceAll pattern "{index}".toList (formatInt (wrapInt (startNum + i)))
  let newFilename := ReplaceAll newFilename "{name}".toList base
  ReplaceAll newFilename "{ext}".toList ext

/-- The final `newFilename` of `BulkRenameCommand.Execute`: the substituted
text, with the extension appended when the text holds no dot. -/
def newFilename (pattern : GoString) (startNum : Int) (i : Nat) (name : GoString) : GoString :=
  let ext := Ext name
  let newFilename := substituted pattern startNum i name
  if !Contains newFilename ".".toList then newFilename ++ ext else newFilename

/-! ## Package `time` -/

/-- A Go `time.Time`: the instant, and its presentation in the location of the
value (what `Date`, `Clock` and `Zone` return). -/
structure Time where
  /-- Nanoseconds since the Unix epoch. -/
  instant : Int
  year : Int
  /-- Month of the year, 1 to 12. -/
  month : Nat
  /-- Day of the month, 1 to 31. -/
  day : Nat
  hour : Nat
  minute : Nat
  second : Nat
  /-- Seconds east of UTC. -/
  offset : Int
deriving DecidableEq

/-- Go `Time.Before`. -/
def Time.Before (t u : Time) : Bool := decide (t.instant < u.instant)

/-- Go `time.appendInt`: the decimal form of `x`, zero-padded to `width`, after a
`-` when `x` is negative. -/
def appendInt (x : Int) (width : Nat) : GoString :=
  let u := x.natAbs
  (if x < 0 then ['-'] else []) ++
    (if width = 2 ∧ u < 100 then [digitChar (u / 10), digitChar (u % 10)]
     else if width = 4 ∧ u < 10000 then
       [digitChar (u / 1000), digitChar (u / 100 % 10), digitChar (u / 10 % 10), digitChar (u % 10)]
     else List.replicate (width - (formatNat u).length) '0' ++ formatNat u)

/-- Go `t.Format("02012006")`: the layout is the chunk `02` (zero-padded day),
the chunk `01` (zero-padded month) and the chunk `2006` (year). -/
def formatDayMonthYear (t : Time) : GoString :=
  appendInt t.day 2 ++ appendInt t.month 2 ++ appendInt t.year 4

/-- The zone chunk `Z07:00` of a layout. -/
def formatZone (offset : Int) : GoString :=
  if offset = 0 then ['Z']
  else
    let zone := Int.tdiv offset 60
    (if zone < 0 then ['-'] else ['+']) ++
      appendInt (zone.natAbs / 60) 2 ++ [':'] ++ appendInt (zone.natAbs % 60) 2

/-- Go `t.Format(time.RFC3339)`, the layout `2006-01-02T15:04:05Z07:00`. -/
def formatRFC3339 (t : Time) : GoString :=
  appendInt t.year 4 ++ ['-'] ++ appendInt t.month 2 ++ ['-'] ++ appendInt t.day 2 ++ ['T'] ++
    appendInt t.hour 2 ++ [':'] ++ appendInt t.minute 2 ++ [':'] ++ appendInt t.second 2 ++
    formatZone t.offset

/-! ## Paths -/

/-- A path as Go `filepath.Clean` leaves it: whether it starts at the root, and
its elements.  `Clean` yields the text `toString` of such a value; `Dir` and
`Join` of the library clean their result, and are modelled on the cleaned
form. -/
structure Path where
  rooted : Bool
  elems : List GoString
deriving DecidableEq

/-- One path element through the loop of `filepath.Clean`: empty and `.`
elements vanish, `..` removes the element before it where there is one to
remove, any other element is appended. -/
def Path.push (p : Path) (e : GoString) : Path :=
  if e = [] ∨ e = ['.'] then p
  else if e = ['.', '.'] then
    match p.elems.getLast? with
    | none => if p.rooted then p else ⟨p.rooted, [e]⟩
    | some l => if l = ['.', '.'] then ⟨p.rooted, p.elems ++ [e]⟩ else ⟨p.rooted, p.elems.dropLast⟩
  else ⟨p.rooted, p.elems ++ [e]⟩

/-- Go `filepath.Clean`, with the result kept in split form. -/
def Clean (s : GoString) : Path :=
  (s.splitOn '/').foldl Path.push ⟨s.head? = some '/', []⟩

/-- Go `filepath.Join(p, s)` for a cleaned, non-empty first argument:
`Clean(p + "/" + s)`. -/
def Join (p : Path) (s : GoString) : Path :=
  (s.splitOn '/').foldl Path.push p

/-- Go `filepath.Dir` on a cleaned path: all but the last element. -/
def Dir (p : Path) : Path := ⟨p.rooted, p.elems.dropLast⟩

/-- The text of a cleaned path. -/
def Path.toString (p : Path) : GoString :=
  if p.rooted then '/' :: List.intercalate ['/'] p.elems
  else if p.elems = [] then ['.'] else List.intercalate ['/'] p.elems

/-! ## The operating system -/

/-- Go `fs.FileInfo`. -/
structure FileInfo where
  name : GoString
  size : Int
  modTime : Time
  isDir : Bool
deriving DecidableEq

/-- Go `fs.DirEntry`, as `os.ReadDir` returns it. -/
structure DirEntry where
  name : GoString
  isDir : Bool
deriving DecidableEq

/-- The calls the program makes into package `os`, over a filesystem state `σ`.
An error is held as its message.  Calls that only read leave the state as it
is. -/
structure OS (σ : Type) where
  /-- Go `os.Stat`. -/
  stat : σ → Path → Except GoString FileInfo
  /-- Go `os.Lstat`, also behind `DirEntry.Info`. -/
  lstat : σ → Path → Except GoString FileInfo
  /-- Go `os.ReadDir`: the entries of a directory, sorted by file name. -/
  readDir : σ → Path → Except GoString (List DirEntry)
  /-- Go `os.MkdirAll`. -/
  mkdirAll : σ → Path → Except GoString σ
  /-- Go `os.Rename`. -/
  rename : σ → Path → Path → Except GoString σ

/-- A call into the filesystem made for a file: one that changes the
filesystem, or one that returned an error. -/
inductive Event where
  /-- `os.MkdirAll(dir)` returned nil. -/
  | mkdir (dir : Path)
  /-- `os.Rename(src, dst)` returned nil. -/
  | renamed (src dst : Path)
  /-- `d.Info()` for the entry at `path` returned the error `err`. -/
  | infoFailed (path : Path) (err : GoString)
  /-- `os.MkdirAll(dir)` returned the error `err`. -/
  | mkdirFailed (dir : Path) (err : GoString)
  /-- `os.Rename(src, dst)` returned the error `err`. -/
  | renameFailed (src dst : Path) (err : GoString)
deriving DecidableEq

/-- The state of a run: the filesystem, the lines printed so far, and (for the
proofs only) the record of the calls made so far for the files. -/
structure St (σ : Type) where
  fs : σ
  out : List GoString
  trace : List Event

/-- How a run ends: with nil, with an error, or not within the given number of
nested calls. -/
inductive Outcome where
  | ok
  | error (msg : GoString)
  | unfinished
deriving DecidableEq

/-! ## `filepath.WalkDir` -/

/-- The loop `for _, d1 := range dirs` of the library function `walkDir`: each
entry is walked with `rec`, and the first error ends the loop. -/
def walkEntries {σ : Type} (rec : St σ → Path → DirEntry → St σ × Outcome)
    (path : Path) : List DirEntry → St σ → St σ × Outcome
  | [], st => (st, Outcome.ok)
  | d1 :: rest, st =>
    match rec st (Join path d1.name) d1 with
    | (st1, Outcome.ok) => walkEntries rec path rest st1
    | r => r

/-- The library function `walkDir` of `filepath.WalkDir`: the callback `fn` is
called on the entry, then, for a directory, the directory is read and its
entries are walked in order.  The callbacks of this program never return
`SkipDir` or `SkipAll`, so those branches are left out.  The fuel bounds the
nesting of directories. -/
def walkDir {σ : Type} (os : OS σ)
    (fn : St σ → Path → DirEntry → Option GoString → St σ × Option GoString) :
    Nat → St σ → Path → DirEntry → St σ × Outcome
  | 0, st, _, _ => (st, Outcome.unfinished)
  | fuel + 1, st, path, d =>
    match fn st path d none with
    | (st1, some e) => (st1, Outcome.error e)
    | (st1, none) =>
      if !d.isDir then (st1, Outcome.ok)
      else
        match os.readDir st1.fs path with
        | Except.error e =>
          match fn st1 path d (some e) with
          | (st2, some e2) => (st2, Outcome.error e2)
          | (st2, none) => (st2, Outcome.ok)
        | Except.ok dirs => walkEntries (walkDir os fn fuel) path dirs st1

/-- Go `filepath.WalkDir(root, fn)`.  When `Lstat` fails the callback receives
the error and no entry; the entry passed here is then not looked at. -/
def WalkDir {σ : Type} (os : OS σ)
    (fn : St σ → Path → DirEntry → Option GoString → St σ × Option GoString)
    (fuel : Nat) (st : St σ) (root : Path) : St σ × Outcome :=
  match os.lstat st.fs root with
  | Except.error e =>
    match fn st root ⟨[], false⟩ (some e) with
    | (st1, some e1) => (st1, Outcome.error e1)
    | (st1, none) => (st1, Outcome.ok)
  | Except.ok info => walkDir os fn fuel st root ⟨info.name, info.isDir⟩

/-! ## The commands -/

/-- The command line as `cli.Context` presents it. -/
structure Context where
  /-- The positional arguments, `ctx.Args()`. -/
  args : List GoString
  /-- The flag `dry-run`. -/
  dryRun : Bool
  /-- The flag `start`. -/
  start : Int
  /-- The flag `sort`. -/
  sort : GoString
  /-- The flag `recursive`. -/
  recursive : Bool

/-- The beginning shared by every `Execute` but the one of bulkrename: the
directory argument must be there and must name a directory. -/
def checkDir {σ : Type} (os : OS σ) (ctx : Context) (fs : σ) : Except GoString GoString :=
  match ctx.args with
  | [] => Except.error "please provide a directory path".toList
  | sourcePath :: _ =>
    match os.stat fs (Clean sourcePath) with
    | Except.error e => Except.error ("error accessing path: ".toList ++ e)
    | Except.ok info =>
      if !info.isDir then Except.error (sourcePath ++ " is not a directory".toList)
      else Except.ok sourcePath

/-- The message for a failing `os.Rename` in the sort commands. -/
def moveError (path targetPath : Path) (e : GoString) : GoString :=
  "failed to move file ".toList ++ path.toString ++ " to ".toList ++ targetPath.toString ++
    ": ".toList ++ e

/-- The message for a failing `d.Info()`. -/
def infoError (path : Path) (e : GoString) : GoString :=
  "cannot get file info for ".toList ++ path.toString ++ ": ".toList ++ e

/-- The message for a failing `os.MkdirAll` in the sort commands. -/
def mkdirError (targetDir : Path) (e : GoString) : GoString :=
  "failed to create directory ".toList ++ targetDir.toString ++ ": ".toList ++ e

/-- The callback the three sort commands hand to `filepath.WalkDir`.  The three
closures in the source differ only in how the folder name is found, which is
the argument `category` here; it fails, with the error of `d.Info()`, where the
closure calls `d.Info()` and that call fails. -/
def sortVisit {σ : Type} (os : OS σ) (category : σ → Path → DirEntry → Except GoString GoString)
    (sourcePath : Path) (st : St σ) (path : Path) (d : DirEntry) (err : Option GoString) :
    St σ × Option GoString :=
  match err with
  | some e => (st, some e)
  | none =>
    if d.isDir || path = sourcePath then (st, none)
    else
      match category st.fs path d with
      | Except.error e =>
        (⟨st.fs, st.out, st.trace ++ [Event.infoFailed path e]⟩, some (infoError path e))
      | Except.ok folder =>
        let targetDir := Join (Dir path) folder
        match os.mkdirAll st.fs targetDir with
        | Except.error e =>
          (⟨st.fs, st.out, st.trace ++ [Event.mkdirFailed targetDir e]⟩,
            some (mkdirError targetDir e))
        | Except.ok fs1 =>
          let targetPath := Join targetDir d.name
          match os.rename fs1 path targetPath with
          | Except.error e =>
            (⟨fs1, st.out, st.trace ++ [Event.mkdir targetDir, Event.renameFailed path targetPath e]⟩,
              some (moveError path targetPath e))
          | Except.ok fs2 =>
            (⟨fs2, st.out ++ ["Moved ".toList ++ path.toString ++ " to ".toList ++ targetPath.toString],
              st.trace ++ [Event.mkdir targetDir, Event.renamed path targetPath]⟩, none)

/-- The shape shared by the `Execute` of the three sort commands. -/
def sortExecute {σ : Type} (os : OS σ) (category : σ → Path → DirEntry → Except GoString GoString)
    (fuel : Nat) (ctx : Context) (st : St σ) : St σ × Outcome :=
  match checkDir os ctx st.fs with
  | Except.error e => (st, Outcome.error e)
  | Except.ok sourcePath =>
    WalkDir os (sortVisit os category (Clean sourcePath)) fuel st (Clean sourcePath)

/-- The folder name of sortbydate: `fileInfo.ModTime().Format("02012006")`, after
`d.Info()`. -/
def dateCategory {σ : Type} (os : OS σ) (fs : σ) (path : Path) (_d : DirEntry) :
    Except GoString GoString :=
  match os.lstat fs path with
  | Except.error e => Except.error e
  | Except.ok fileInfo => Except.ok (formatDayMonthYear fileInfo.modTime)

/-- The folder name of sortbytype, from `d.Name()`. -/
def typeCategoryOf {σ : Type} (_fs : σ) (_path : Path) (d : DirEntry) : Except GoString GoString :=
  Except.ok (typeCategory d.name)

/-- The folder name of sortbysize, from `fileInfo.Size()`, after `d.Info()`. -/
def sizeCategoryOf {σ : Type} (os : OS σ) (fs : σ) (path : Path) (_d : DirEntry) :
    Except GoString GoString :=
  match os.lstat fs path with
  | Except.error e => Except.error e
  | Except.ok fileInfo => Except.ok (sizeCategory fileInfo.size)

/-- The method `SortByDateCommand.Execute`. -/
def SortByDateCommand.Execute {σ : Type} (os : OS σ) (fuel : Nat) (ctx : Context) (st : St σ) :
    St σ × Outcome :=
  sortExecute os (dateCategory os) fuel ctx st

/-- The method `SortByTypeCommand.Execute`. -/
def SortByTypeCommand.Execute {σ : Type} (os : OS σ) (fuel : Nat) (ctx : Context) (st : St σ) :
    St σ × Outcome :=
  sortExecute os typeCategoryOf fuel ctx st

/-- The method `SortBySizeCommand.Execute`. -/
def SortBySizeCommand.Execute {σ : Type} (os : OS σ) (fuel : Nat) (ctx : Context) (st : St σ) :
    St σ × Outcome :=
  sortExecute os (sizeCategoryOf os) fuel ctx st

/-! ## bulkrename -/

/-- The line a dry run of bulkrename prints for the file at position `i`. -/
def previewLine (sourcePath : Path) (pattern : GoString) (startNum : Int) (i : Nat)
    (file : DirEntry) : GoString :=
  "Would rename: ".toList ++ (Join sourcePath file.name).toString ++ " -> ".toList ++
    (Join sourcePath (newFilename pattern startNum i file.name)).toString

/-- The loop `for i, file := range files` of `BulkRenameCommand.Execute`, from
position `i` on. -/
def renameLoop {σ : Type} (os : OS σ) (sourcePath : Path) (pattern : GoString) (dryRun : Bool)
    (startNum : Int) : Nat → List DirEntry → St σ → St σ × Outcome
  | _, [], st => (st, Outcome.ok)
  | i, file :: rest, st =>
    let oldPath := Join sourcePath file.name
    let newPath := Join sourcePath (newFilename pattern startNum i file.name)
    if dryRun then
      renameLoop os sourcePath pattern dryRun startNum (i + 1) rest
        ⟨st.fs, st.out ++ [previewLine sourcePath pattern startNum i file], st.trace⟩
    else
      match os.rename st.fs oldPath newPath with
      | Except.error e =>
        (⟨st.fs, st.out, st.trace ++ [Event.renameFailed oldPath newPath e]⟩,
          Outcome.error ("failed to rename ".toList ++ oldPath.toString ++ " to ".toList ++
            newPath.toString ++ ": ".toList ++ e))
      | Except.ok fs1 =>
        renameLoop os sourcePath pattern dryRun startNum (i + 1) rest
          ⟨fs1, st.out ++ ["Renamed: ".toList ++ oldPath.toString ++ " -> ".toList ++
            newPath.toString], st.trace ++ [Event.renamed oldPath newPath]⟩

/-- The method `BulkRenameCommand.Execute`. -/
def BulkRenameCommand.Execute {σ : Type} (os : OS σ) (ctx : Context) (st : St σ) :
    St σ × Outcome :=
  match ctx.args with
  | sourcePath :: pattern :: _ =>
    match os.stat st.fs (Clean sourcePath) with
    | Except.error e => (st, Outcome.error ("error accessing path: ".toList ++ e))
    | Except.ok info =>
      if !info.isDir then (st, Outcome.error (sourcePath ++ " is not a directory".toList))
      else
        match os.readDir st.fs (Clean sourcePath) with
        | Except.error e => (st, Outcome.error ("error reading directory: ".toList ++ e))
        | Except.ok entries =>
          let files := entries.filter (fun entry => !entry.isDir)
          renameLoop os (Clean sourcePath) pattern ctx.dryRun ctx.start 0 files st
  | _ => (st, Outcome.error "please provide a directory path and rename pattern".toList)

/-! ## list -/

/-- The inner loop of the library's insertion sort, `for j := i; j > a &&
less(j, j-1); j--` with its swaps: `x` moves towards the front of the part
already sorted, which is held last element first. -/
def insertBack {α : Type} (less : α → α → Bool) (x : α) : List α → List α
  | [] => [x]
  | y :: ys => if less x y then y :: insertBack less x ys else x :: y :: ys

/-- The library's insertion sort, `insertionSortLessFunc`: the routine
`sort.Slice` runs on slices of up to twelve elements. -/
def insertionSort {α : Type} (less : α → α → Bool) (files : List α) : List α :=
  (files.foldl (fun sorted x => insertBack less x sorted) []).reverse

/-- The `switch sortBy` of `ListCommand.Execute`: the sorted slice, or the error
of the default case.  Go `sort.Slice` is not part of the program and is the
argument `sortSlice`, of which nothing is fixed here: it receives the less
function and the slice and returns the slice as the library leaves it. -/
def sortFiles (sortSlice : (FileInfo → FileInfo → Bool) → List FileInfo → List FileInfo)
    (sortBy : GoString) (files : List FileInfo) : Except GoString (List FileInfo) :=
  if sortBy = "name".toList then
    Except.ok (sortSlice (fun fi fj => decide (fi.name < fj.name)) files)
  else if sortBy = "size".toList then
    Except.ok (sortSlice (fun fi fj => decide (fi.size < fj.size)) files)
  else if sortBy = "time".toList then
    Except.ok (sortSlice (fun fi fj => fi.modTime.Before fj.modTime) files)
  else Except.error ("unknown sort option: ".toList ++ sortBy)

/-- The loop `for _, name := range names` of the library function `walk` behind
`filepath.Walk`, with the callback of `ListCommand.Execute` (an error is
returned as it is, a non-directory is appended to `files`). -/
def walkNames {σ : Type} (os : OS σ) (fs : σ)
    (rec : Path → FileInfo → List FileInfo → Except GoString (Option (List FileInfo)))
    (path : Path) : List GoString → List FileInfo → Except GoString (Option (List FileInfo))
  | [], files => Except.ok (some files)
  | name :: rest, files =>
    match os.lstat fs (Join path name) with
    | Except.error e => Except.error e
    | Except.ok fileInfo =>
      match rec (Join path name) fileInfo files with
      | Except.ok (some files1) => walkNames os fs rec path rest files1
      | r => r

/-- The library function `walk` behind `filepath.Walk`, with the callback of
`ListCommand.Execute`.  The result `none` says that the fuel, which bounds
the nesting of directories, ran out. -/
def walkList {σ : Type} (os : OS σ) (fs : σ) :
    Nat → Path → FileInfo → List FileInfo → Except GoString (Option (List FileInfo))
  | 0, _, _, _ => Except.ok none
  | fuel + 1, path, info, files =>
    if !info.isDir then Except.ok (some (files ++ [info]))
    else
      match os.readDir fs path with
      | Except.error e => Except.error e
      | Except.ok entries =>
        walkNames os fs (walkList os fs fuel) path (entries.map (fun entry => entry.name)) files

/-- The loop over `entries` in the non-recursive branch of
`ListCommand.Execute`. -/
def collectEntries {σ : Type} (os : OS σ) (fs : σ) (sourcePath : Path) :
    List DirEntry → List FileInfo → Except GoString (List FileInfo)
  | [], files => Except.ok files
  | entry :: rest, files =>
    if !entry.isDir then
      match os.lstat fs (Join sourcePath entry.name) with
      | Except.error e => Except.error ("error getting file info: ".toList ++ e)
      | Except.ok info => collectEntries os fs sourcePath rest (files ++ [info])
    else collectEntries os fs sourcePath rest files

/-- The collection of `files` in `ListCommand.Execute`, in either mode. -/
def collectFiles {σ : Type} (os : OS σ) (fuel : Nat) (fs : σ) (sourcePath : Path)
    (recursive : Bool) : Except GoString (Option (List FileInfo)) :=
  if recursive then
    match os.lstat fs sourcePath with
    | Except.error e => Except.error ("error walking directory: ".toList ++ e)
    | Except.ok info =>
      match walkList os fs fuel sourcePath info [] with
      | Except.error e => Except.error ("error walking directory: ".toList ++ e)
      | Except.ok r => Except.ok r
  else
    match os.readDir fs sourcePath with
    | Except.error e => Except.error ("error reading directory: ".toList ++ e)
    | Except.ok entries =>
      match collectEntries os fs sourcePath entries [] with
      | Except.error e => Except.error e
      | Except.ok files => Except.ok (some files)

/-- The line `ListCommand.Execute` prints for one file. -/
def listLine (file : FileInfo) : GoString :=
  "- ".toList ++ file.name ++ " (Size: ".toList ++ formatInt file.size ++
    " bytes, Modified: ".toList ++ formatRFC3339 file.modTime ++ ")".toList

/-- The method `ListCommand.Execute`, with Go `sort.Slice` as the argument
`sortSlice`. -/
def ListCommand.Execute {σ : Type} (os : OS σ)
    (sortSlice : (FileInfo → FileInfo → Bool) → List FileInfo → List FileInfo)
    (fuel : Nat) (ctx : Context) (st : St σ) : St σ × Outcome :=
  match checkDir os ctx st.fs with
  | Except.error e => (st, Outcome.error e)
  | Except.ok sourcePath =>
    match collectFiles os fuel st.fs (Clean sourcePath) ctx.recursive with
    | Except.error e => (st, Outcome.error e)
    | Except.ok none => (st, Outcome.unfinished)
    | Except.ok (some files) =>
      match sortFiles sortSlice ctx.sort files with
      | Except.error e => (st, Outcome.error e)
      | Except.ok sorted =>
        (⟨st.fs, st.out ++ "Files:".toList :: sorted.map listLine, st.trace⟩, Outcome.ok)

/-! ## A filesystem in memory

The theorems about the commands hold for every behaviour of the operating
system.  The filesystem below gives them concrete runs: a table from cleaned
paths to nodes, without links, where a directory can be closed to writing. -/

/-- A file name as a directory holds it: not empty, not `.` or `..`, and without
a separator. -/
def PlainName (name : GoString) : Prop :=
  name ≠ [] ∧ name ≠ ['.'] ∧ name ≠ ['.', '.'] ∧ '/' ∉ name

instance plainNameDecidable (name : GoString) : Decidable (PlainName name) := by
  unfold PlainName
  exact inferInstance

/-- A file with its size and modification time, or a directory that can or
cannot be written to. -/
inductive Node where
  | file (size : Int) (modTime : Time)
  | dir (writable : Bool)
deriving DecidableEq

/-- The table of the nodes.  The working directory and the root, the paths
without elements, are not listed: they are writable directories. -/
abbrev MemFS := List (Path × Node)

/-- The node at a path, if any. -/
def MemFS.node (fs : MemFS) (p : Path) : Option Node :=
  if p.elems = [] then some (Node.dir true) else fs.lookup p

/-- The last element of a path: `Name()` of its `FileInfo`. -/
def Path.base (p : Path) : GoString := p.elems.getLast?.getD p.toString

/-- The modification time reported for directories. -/
def dirTime : Time := ⟨0, 1970, 1, 1, 0, 0, 0, 0⟩

/-- The text of a failed call: `op path: reason`. -/
def pathError (op : String) (p : Path) (reason : String) : GoString :=
  op.toList ++ [' '] ++ p.toString ++ ": ".toList ++ reason.toList

/-- The call `os.Lstat` (and `os.Stat`, there being no links). -/
def MemFS.lstat (fs : MemFS) (p : Path) : Except GoString FileInfo :=
  match fs.node p with
  | none => Except.error (pathError "lstat" p "no such file or directory")
  | some (Node.file size modTime) => Except.ok ⟨p.base, size, modTime, false⟩
  | some (Node.dir _) => Except.ok ⟨p.base, 4096, dirTime, true⟩

/-- The call `os.ReadDir`: the entries right below `p`, sorted by name (the names
in a directory differ, so every sort gives the same order).  Only names a
directory can hold are listed. -/
def MemFS.readDir (fs : MemFS) (p : Path) : Except GoString (List DirEntry) :=
  match fs.node p with
  | none => Except.error (pathError "open" p "no such file or directory")
  | some (Node.file _ _) => Except.error (pathError "readdirent" p "not a directory")
  | some (Node.dir _) =>
    Except.ok (insertionSort (fun a b => decide (a.name < b.name))
      ((fs.filter (fun e => e.1.elems ≠ [] ∧ Dir e.1 = p ∧ PlainName e.1.base)).map
        (fun e => ⟨e.1.base, match e.2 with | Node.dir _ => true | Node.file _ _ => false⟩)))

/-- The call `os.Mkdir`. -/
def MemFS.mkdir (fs : MemFS) (p : Path) : Except GoString MemFS :=
  match fs.node p with
  | some _ => Except.error (pathError "mkdir" p "file exists")
  | none =>
    match fs.node (Dir p) with
    | none => Except.error (pathError "mkdir" p "no such file or directory")
    | some (Node.file _ _) => Except.error (pathError "mkdir" p "not a directory")
    | some (Node.dir false) => Except.error (pathError "mkdir" p "permission denied")
    | some (Node.dir true) => Except.ok ((p, Node.dir true) :: fs)

/-- The call `os.MkdirAll`: nothing to do for a directory that is there, an
error for a file, and otherwise the parent first and then `Mkdir`.  The fuel
is the number of elements of the path. -/
def MemFS.mkdirAllAux : Nat → MemFS → Path → Except GoString MemFS
  | 0, fs, p =>
    match fs.node p with
    | some (Node.dir _) => Except.ok fs
    | _ => Except.error (pathError "mkdir" p "not a directory")
  | n + 1, fs, p =>
    match fs.node p with
    | some (Node.dir _) => Except.ok fs
    | some (Node.file _ _) => Except.error (pathError "mkdir" p "not a directory")
    | none =>
      match MemFS.mkdirAllAux n fs (Dir p) with
      | Except.error e => Except.error e
      | Except.ok fs1 => MemFS.mkdir fs1 p

/-- The call `os.MkdirAll`. -/
def MemFS.mkdirAll (fs : MemFS) (p : Path) : Except GoString MemFS :=
  MemFS.mkdirAllAux p.elems.length fs p

/-- The text of a failed rename. -/
def linkError (src dst : Path) (reason : String) : GoString :=
  "rename ".toList ++ src.toString ++ [' '] ++ dst.toString ++ ": ".toList ++ reason.toList

/-- Whether the directory holding `p` is there and can be written to. -/
def MemFS.parentWritable (fs : MemFS) (p : Path) : Bool :=
  match fs.node (Dir p) with
  | some (Node.dir true) => true
  | _ => false

/-- The call `os.Rename` for a source that is not a directory, the only kind
the program renames: the entry leaves its directory and takes the new place,
replacing a file that is there. -/
def MemFS.rename (fs : MemFS) (src dst : Path) : Except GoString MemFS :=
  match fs.node src with
  | none => Except.error (linkError src dst "no such file or directory")
  | some (Node.dir _) => Except.error (linkError src dst "directories are not renamed")
  | some (Node.file size modTime) =>
    match fs.node (Dir dst) with
    | none => Except.error (linkError src dst "no such file or directory")
    | some (Node.file _ _) => Except.error (linkError src dst "not a directory")
    | some (Node.dir _) =>
      if !(fs.parentWritable src && fs.parentWritable dst) then
        Except.error (linkError src dst "permission denied")
      else
        match fs.node dst with
        | some (Node.dir _) => Except.error (linkError src dst "file exists")
        | _ =>
          Except.ok ((dst, Node.file size modTime) ::
            fs.filter (fun e => e.1 ≠ src ∧ e.1 ≠ dst))

/-- The filesystem in memory as an operating system. -/
def memOS : OS MemFS where
  stat := MemFS.lstat
  lstat := MemFS.lstat
  readDir := MemFS.readDir
  mkdirAll := MemFS.mkdirAll
  rename := MemFS.rename

/-! ## Notions used in the statements -/

/-- The lines a dry run of bulkrename prints for `files`, counted from `i`. -/
def previewLines (sourcePath : Path) (pattern : GoString) (startNum : Int) :
    Nat → List DirEntry → List GoString
  | _, [] => []
  | i, file :: rest =>
    previewLine sourcePath pattern startNum i file ::
      previewLines sourcePath pattern startNum (i + 1) rest

/-- "Every occurrence replaced", in the words of the specification: the text is
read from the left; where an instance of `old` begins, `new` is written and
the instance is passed over; any other element is copied.  The counter holds
how many elements of a passed instance are still to pass. -/
def everyReplaced (old new : GoString) : Nat → GoString → GoString
  | _, [] => []
  | skip + 1, _ :: t => everyReplaced old new skip t
  | 0, c :: t =>
    if old.isPrefixOf (c :: t) then new ++ everyReplaced old new (old.length - 1) t
    else c :: everyReplaced old new 0 t

/-- The value of a numeral read from the left. -/
def numeralValue (s : GoString) : Nat := s.foldl (fun a c => 10 * a + (c.toNat - 48)) 0

/-- What the documentation of package `sort` asks of a less function: a strict
weak ordering. -/
def StrictWeakOrder {α : Type} (less : α → α → Bool) : Prop :=
  (∀ a, less a a = false) ∧
  (∀ a b c, less a b = true → less b c = true → less a c = true) ∧
  (∀ a b c, less a b = false → less b c = false → less a c = false)

/-- What the documentation of `sort.Slice` promises of the slice it leaves, for
a less function that is a strict weak ordering: the same elements, in an order
in which no element is less than one before it. -/
def SortsSlice {α : Type} (sortSlice : (α → α → Bool) → List α → List α) : Prop :=
  ∀ less : α → α → Bool, StrictWeakOrder less → ∀ files : List α,
    (sortSlice less files).Perm files ∧
    (sortSlice less files).Pairwise (fun a b => less b a = false)

/-- Whether the second event moves on what the first one moved: a rename that
starts where an earlier rename ended. -/
def Event.movesOn : Event → Event → Bool
  | Event.renamed _ dst, Event.renamed src _ => decide (src = dst)
  | _, _ => false

/-- A trace made of visits that went well: each visit is of an entry `d`, not a
directory, that a reading of the directory `top` returned; the folder name is
found, `os.MkdirAll` and `os.Rename` return nil, and the two calls are
recorded.  The trace leads from the first filesystem to the second. -/
inductive Moves {σ : Type} (os : OS σ)
    (category : σ → Path → DirEntry → Except GoString GoString) :
    σ → List Event → σ → Prop where
  | done (fs : σ) : Moves os category fs [] fs
  | visit (fs fs1 fs2 fs3 fsL : σ) (top : Path) (entries : List DirEntry) (d : DirEntry)
      (folder : GoString) (rest : List Event) :
      os.readDir fsL top = Except.ok entries → d ∈ entries → d.isDir = false →
      category fs (Join top d.name) d = Except.ok folder →
      os.mkdirAll fs (Join (Dir (Join top d.name)) folder) = Except.ok fs1 →
      os.rename fs1 (Join top d.name) (Join (Join (Dir (Join top d.name)) folder) d.name) =
        Except.ok fs2 →
      Moves os category fs2 rest fs3 →
      Moves os category fs
        (Event.mkdir (Join (Dir (Join top d.name)) folder) ::
          Event.renamed (Join top d.name) (Join (Join (Dir (Join top d.name)) folder) d.name) ::
          rest) fs3

/-- The directory of the listing scenario: `a.txt` of 10 bytes, `b.txt` of 5. -/
def listingFS : MemFS :=
  [(Clean "dir".toList, Node.dir true),
   (Clean "dir/a.txt".toList, Node.file 10 ⟨1709773323000000000, 2024, 3, 7, 1, 2, 3, 0⟩),
   (Clean "dir/b.txt".toList, Node.file 5 ⟨1709773323000000000, 2024, 3, 7, 1, 2, 3, 0⟩)]

/-- The command line `list dir --sort size`. -/
def listingCtx : Context := ⟨["dir".toList], false, 1, "size".toList, false⟩

/-- The tree of the first-error-stops scenario: three files in `dir`, and a
folder `dir/pdf` that is there and closed to writing. -/
def blockedFS : MemFS :=
  [(Clean "dir".toList, Node.dir true),
   (Clean "dir/a.txt".toList, Node.file 10 ⟨1709773323000000000, 2024, 3, 7, 1, 2, 3, 0⟩),
   (Clean "dir/b.pdf".toList, Node.file 5 ⟨1709773323000000000, 2024, 3, 7, 1, 2, 3, 0⟩),
   (Clean "dir/c.txt".toList, Node.file 7 ⟨1709773323000000000, 2024, 3, 7, 1, 2, 3, 0⟩),
   (Clean "dir/pdf".toList, Node.dir false)]

/-- The command line `bulkrename dir {name}_{index} --dry-run`. -/
def previewCtx : Context := ⟨["dir".toList, "{name}_{index}".toList], true, 1, "name".toList, false⟩

theorem everyReplaced_skip (old new : GoString) (k : Nat) (s : GoString) :
    everyReplaced old new k s = everyReplaced old new 0 (s.drop k) := by
  induction k generalizing s with
  | zero => simp
  | succ k ih =>
    cases s with
    | nil => simp [everyReplaced]
    | cons c t => simp [everyReplaced, ih]

theorem Index_nil_of_ne (old : GoString) (h : old ≠ []) : Index [] old = none := by
  cases old with
  | nil => exact absurd rfl h
  | cons a l => simp [Index]

theorem Index_cons (c : Char) (t old : GoString) :
    Index (c :: t) old = if old.isPrefixOf (c :: t) then some 0 else (Index t old).map (· + 1) := by
  rw [Index]

theorem Index_some_spec (old : GoString) : ∀ (s : GoString) (j : Nat), Index s old = some j →
    s = s.take j ++ old ++ s.drop (j + old.length) := by
  intro s
  induction s with
  | nil =>
    intro j h
    cases old with
    | nil => simp
    | cons a l => simp [Index] at h
  | cons c t ih =>
    intro j h
    rw [Index_cons] at h
    split at h
    · rename_i hp
      cases h
      rw [List.isPrefixOf_iff_prefix] at hp
      obtain ⟨r, hr⟩ := hp
      simp only [List.take_zero, List.nil_append, Nat.zero_add]
      rw [← hr]; simp
    · cases hI : Index t old with
      | none => simp [hI] at h
      | some k =>
        simp [hI] at h
        subst h
        have := ih k hI
        simp only [List.take_succ_cons, List.cons_append, Nat.add_right_comm k 1, List.drop_succ_cons]
        rw [← List.cons_append]
        exact congrArg (c :: ·) (by simpa using this)

theorem everyReplaced_of_index_none (old new : GoString) :
    ∀ s : GoString, Index s old = none → everyReplaced old new 0 s = s := by
  intro s
  induction s with
  | nil => intro _; simp [everyReplaced]
  | cons c t ih =>
    intro h
    rw [Index_cons] at h
    split at h
    · cases h
    · rename_i hp
      have ht : Index t old = none := by
        cases hI : Index t old with
        | none => rfl
        | some k => simp [hI] at h
      simp [everyReplaced, hp, ih ht]

theorem everyReplaced_of_index_some (old new : GoString) (hold : old ≠ []) :
    ∀ (s : GoString) (j : Nat), Index s old = some j →
      everyReplaced old new 0 s =
        s.take j ++ new ++ everyReplaced old new 0 (s.drop (j + old.length)) := by
  intro s
  induction s with
  | nil => intro j h; rw [Index_nil_of_ne old hold] at h; cases h
  | cons c t ih =>
    intro j h
    rw [Index_cons] at h
    split at h
    · rename_i hp
      cases h
      simp only [everyReplaced, hp, if_true, List.take_zero, List.nil_append, Nat.zero_add]
      rw [everyReplaced_skip]
      cases old with
      | nil => exact absurd rfl hold
      | cons a l => simp
    · rename_i hp
      cases hI : Index t old with
      | none => simp [hI] at h
      | some k =>
        simp [hI] at h
        subst h
        simp only [everyReplaced, hp, Bool.false_eq_true, if_false, List.take_succ_cons, List.cons_append,
          Nat.add_right_comm k 1, List.drop_succ_cons]
        rw [ih k hI]

theorem Index_some_bound (old : GoString) : ∀ (s : GoString) (j : Nat), Index s old = some j →
    j + old.length ≤ s.length := by
  intro s
  induction s with
  | nil =>
    intro j h
    cases old with
    | nil => simp [Index] at h; simp [h]
    | cons a l => simp [Index] at h
  | cons c t ih =>
    intro j h
    rw [Index_cons] at h
    split at h
    · rename_i hp
      cases h
      rw [List.isPrefixOf_iff_prefix] at hp
      simpa using hp.length_le
    · cases hI : Index t old with
      | none => simp [hI] at h
      | some k =>
        simp [hI] at h
        subst h
        have := ih k hI
        simp only [List.length_cons]
        omega

theorem countLoop_of_index_none (old : GoString) (fuel : Nat) (s : GoString)
    (h : Index s old = none) : countLoop old fuel s = 0 := by
  cases fuel with
  | zero => rfl
  | succ n => simp [countLoop, h]

theorem replaceLoop_eq_everyReplaced (old new : GoString) (hold : old ≠ []) :
    ∀ (fuel : Nat) (s : GoString) (i : Nat), s.length < fuel →
      replaceLoop old new (countLoop old fuel s) i s = everyReplaced old new 0 s := by
  intro fuel
  induction fuel with
  | zero => intro s i h; omega
  | succ n ih =>
    intro s i h
    cases hI : Index s old with
    | none =>
      rw [countLoop_of_index_none old _ s hI, everyReplaced_of_index_none old new s hI]
      rfl
    | some j =>
      have hb := Index_some_bound old s j hI
      have hlen : 0 < old.length := List.length_pos.mpr hold
      have hd : (s.drop (j + old.length)).length < n := by
        simp only [List.length_drop]; omega
      simp only [countLoop, hI]
      rw [Nat.add_comm 1, replaceLoop]
      simp only [hold, if_false, hI]
      rw [ih _ (i + 1) hd, everyReplaced_of_index_some old new hold s j hI]

theorem everyReplaced_same (old : GoString) (hold : old ≠ []) :
    ∀ (n : Nat) (s : GoString), s.length < n → everyReplaced old old 0 s = s := by
  intro n
  induction n with
  | zero => intro s h; omega
  | succ n ih =>
    intro s h
    cases hI : Index s old with
    | none => exact everyReplaced_of_index_none old old s hI
    | some j =>
      have hb := Index_some_bound old s j hI
      have hlen : 0 < old.length := List.length_pos.mpr hold
      have hd : (s.drop (j + old.length)).length < n := by
        simp only [List.length_drop]; omega
      rw [everyReplaced_of_index_some old old hold s j hI, ih _ hd]
      exact (Index_some_spec old s j hI).symm

/-- The library's `ReplaceAll` replaces every occurrence. -/
theorem ReplaceAll_eq_everyReplaced (s old new : GoString) (hold : old ≠ []) :
    ReplaceAll s old new = everyReplaced old new 0 s := by
  unfold ReplaceAll
  split
  · rename_i h
    subst h
    exact (everyReplaced_same old hold (s.length + 1) s (Nat.lt_succ_self _)).symm
  · simp only [Count, hold, if_false]
    split
    · rename_i h0
      have : Index s old = none := by
        cases hI : Index s old with
        | none => rfl
        | some j => simp [countLoop, hI] at h0
      exact (everyReplaced_of_index_none old new s this).symm
    · exact replaceLoop_eq_everyReplaced old new hold (s.length + 1) s 0 (Nat.lt_succ_self _)

theorem ReplaceAll_of_index_none (s old new : GoString) (hold : old ≠ [])
    (h : Index s old = none) : ReplaceAll s old new = s := by
  rw [ReplaceAll_eq_everyReplaced s old new hold, everyReplaced_of_index_none old new s h]

theorem ReplaceAll_of_index_some (s old new : GoString) (hold : old ≠ []) (j : Nat)
    (h : Index s old = some j) :
    ReplaceAll s old new = s.take j ++ new ++ ReplaceAll (s.drop (j + old.length)) old new := by
  rw [ReplaceAll_eq_everyReplaced s old new hold, ReplaceAll_eq_everyReplaced _ old new hold,
    everyReplaced_of_index_some old new hold s j h]

/-- No instance of a text that begins with `c` starts inside a text without `c`. -/
theorem Index_append_of_not_mem (c : Char) (r : GoString) :
    ∀ (p s : GoString), c ∉ p → Index (p ++ s) (c :: r) = (Index s (c :: r)).map (· + p.length) := by
  intro p
  induction p with
  | nil => intro s _; simp
  | cons a p ih =>
    intro s h
    have ha : c ≠ a := fun e => h (e ▸ List.mem_cons_self _ _)
    have hp : c ∉ p := fun e => h (List.mem_cons_of_mem _ e)
    rw [List.cons_append, Index_cons]
    have : (c :: r).isPrefixOf (a :: (p ++ s)) = false := by
      simp [List.isPrefixOf, ha]
    rw [this, ih s hp]
    cases Index s (c :: r) <;> simp [Nat.add_assoc]

theorem Index_none_of_not_mem (c : Char) (r : GoString) (s : GoString) (h : c ∉ s) :
    Index s (c :: r) = none := by
  have := Index_append_of_not_mem c r s [] h
  simpa [Index] using this

theorem Contains_dot_iff (s : GoString) : Contains s ['.'] = true ↔ '.' ∈ s := by
  induction s with
  | nil => simp [Contains, Index]
  | cons c t ih =>
    unfold Contains at ih ⊢
    rw [Index_cons]
    by_cases hc : c = '.'
    · subst hc; simp [List.isPrefixOf]
    · have : (['.'] : GoString).isPrefixOf (c :: t) = false := by
        simp [List.isPrefixOf]; exact fun e => hc e.symm
      rw [this]
      simp only [Bool.false_eq_true, if_false, Option.isSome_map', List.mem_cons]
      rw [ih]
      constructor
      · exact Or.inr
      · rintro (h | h)
        · exact absurd h.symm hc
        · exact h

/-! ## Extensions and numerals -/

/-! ### `filepath.Ext` -/

theorem extScan_cases : ∀ (rev acc : GoString), extScan rev acc = [] ∨
    ∃ r pre, rev = r ++ '.' :: pre ∧ '.' ∉ r ∧ '/' ∉ r ∧
      extScan rev acc = '.' :: (r.reverse ++ acc) := by
  intro rev
  induction rev with
  | nil => intro acc; exact Or.inl rfl
  | cons c r ih =>
    intro acc
    by_cases h2 : c = '/'
    · left; simp [extScan, h2]
    · by_cases h1 : c = '.'
      · right
        refine ⟨[], r, by simp [h1], by simp, by simp, ?_⟩
        subst h1; simp [extScan]
      · rcases ih (c :: acc) with h | ⟨r1, pre, hr, hd, hs, he⟩
        · left; simp [extScan, h1, h2, h]
        · right
          refine ⟨c :: r1, pre, by simp [hr], ?_, ?_, ?_⟩
          · simpa using ⟨fun e => h1 e.symm, hd⟩
          · simpa using ⟨fun e => h2 e.symm, hs⟩
          · simp [extScan, h1, h2, he]

/-- The extension is empty, or a final part of the name that begins with its only dot. -/
theorem Ext_cases (name : GoString) : Ext name = [] ∨
    ∃ stem e, name = stem ++ '.' :: e ∧ '.' ∉ e ∧ '/' ∉ e ∧ Ext name = '.' :: e := by
  rcases extScan_cases name.reverse [] with h | ⟨r, pre, hr, hd, hs, he⟩
  · exact Or.inl h
  · right
    refine ⟨pre.reverse, r.reverse, ?_, by simpa using hd, by simpa using hs, by simpa [Ext] using he⟩
    have := congrArg List.reverse hr
    simpa using this

theorem Ext_suffix (name : GoString) : Ext name <:+ name := by
  rcases Ext_cases name with h | ⟨stem, e, hn, _, _, he⟩
  · rw [h]; exact List.nil_suffix
  · rw [he]; exact ⟨stem, hn.symm⟩

/-- The base name and the extension make up the name. -/
theorem TrimSuffix_append_Ext (name : GoString) : TrimSuffix name (Ext name) ++ Ext name = name := by
  have h := Ext_suffix name
  unfold TrimSuffix HasSuffix
  rw [List.isSuffixOf_iff_suffix.mpr h, if_pos rfl]
  obtain ⟨t, ht⟩ := h
  generalize Ext name = e at ht
  subst ht
  simp

/-! ### Decimal numerals -/

theorem digitChar_toNat (d : Nat) (h : d < 10) : (digitChar d).toNat = 48 + d := by
  interval_cases d <;> rfl

theorem formatDigits_acc : ∀ (fuel n : Nat) (acc : GoString),
    formatDigits fuel n acc = formatDigits fuel n [] ++ acc := by
  intro fuel
  induction fuel with
  | zero => intro n acc; rfl
  | succ k ih =>
    intro n acc
    simp only [formatDigits]
    split
    · rfl
    · rw [ih _ (digitChar (n % 10) :: acc), ih _ [digitChar (n % 10)]]; simp

theorem formatDigits_step (fuel n : Nat) (h : n / 10 ≠ 0) :
    formatDigits (fuel + 1) n [] = formatDigits fuel (n / 10) [] ++ [digitChar (n % 10)] := by
  simp only [formatDigits, h, if_false]
  exact formatDigits_acc _ _ _

theorem formatDigits_small (fuel n : Nat) (h : n / 10 = 0) :
    formatDigits (fuel + 1) n [] = [digitChar (n % 10)] := by
  simp [formatDigits, h]

theorem numeralValue_formatDigits : ∀ (fuel n : Nat), n < fuel →
    numeralValue (formatDigits fuel n []) = n := by
  intro fuel
  induction fuel with
  | zero => intro n h; omega
  | succ k ih =>
    intro n h
    by_cases h0 : n / 10 = 0
    · rw [formatDigits_small k n h0]
      have hn : n < 10 := by omega
      simp [numeralValue, digitChar_toNat _ (Nat.mod_lt n (by decide))]
      omega
    · rw [formatDigits_step k n h0]
      have hk : n / 10 < k := by omega
      have := ih (n / 10) hk
      unfold numeralValue at this ⊢
      rw [List.foldl_append, this]
      simp [digitChar_toNat _ (Nat.mod_lt n (by decide))]
      omega

theorem numeralValue_formatNat (n : Nat) : numeralValue (formatNat n) = n :=
  numeralValue_formatDigits (n + 1) n (Nat.lt_succ_self n)

theorem formatNat_injective (a b : Nat) (h : formatNat a = formatNat b) : a = b := by
  rw [← numeralValue_formatNat a, ← numeralValue_formatNat b, h]

/-- Every element of a numeral is one of the ten digits. -/
theorem formatDigits_digits : ∀ (fuel n : Nat) (c : Char), c ∈ formatDigits fuel n [] →
    ∃ d, d < 10 ∧ c = digitChar d := by
  intro fuel
  induction fuel with
  | zero => intro n c h; simp [formatDigits] at h
  | succ k ih =>
    intro n c h
    by_cases h0 : n / 10 = 0
    · rw [formatDigits_small k n h0] at h
      exact ⟨n % 10, Nat.mod_lt n (by decide), by simpa using h⟩
    · rw [formatDigits_step k n h0] at h
      rcases List.mem_append.mp h with h | h
      · exact ih _ c h
      · exact ⟨n % 10, Nat.mod_lt n (by decide), by simpa using h⟩

theorem formatNat_ne_nil (n : Nat) : formatNat n ≠ [] := by
  unfold formatNat
  by_cases h0 : n / 10 = 0
  · rw [formatDigits_small n n h0]; simp
  · rw [formatDigits_step n n h0]; simp

theorem digitChar_ne (d : Nat) (h : d < 10) : digitChar d ≠ '-' ∧ digitChar d ≠ '.' ∧
    digitChar d ≠ '{' ∧ digitChar d ≠ '/' := by
  interval_cases d <;> decide

theorem formatInt_not_mem (z : Int) : '.' ∉ formatInt z ∧ '{' ∉ formatInt z ∧ '/' ∉ formatInt z := by
  have key : ∀ c : Char, c ≠ '-' → (∀ d, d < 10 → digitChar d ≠ c) → c ∉ formatInt z := by
    intro c hc hd hmem
    unfold formatInt at hmem
    split at hmem
    · rcases List.mem_cons.mp hmem with h | h
      · exact hc h
      · obtain ⟨d, hd10, hcd⟩ := formatDigits_digits _ _ c h
        exact hd d hd10 hcd.symm
    · obtain ⟨d, hd10, hcd⟩ := formatDigits_digits _ _ c hmem
      exact hd d hd10 hcd.symm
  exact ⟨key '.' (by decide) (fun d h => (digitChar_ne d h).2.1),
    key '{' (by decide) (fun d h => (digitChar_ne d h).2.2.1),
    key '/' (by decide) (fun d h => (digitChar_ne d h).2.2.2)⟩

theorem formatInt_ne_nil (z : Int) : formatInt z ≠ [] := by
  unfold formatInt
  split
  · simp
  · exact formatNat_ne_nil _

theorem formatInt_injective (a b : Int) (h : formatInt a = formatInt b) : a = b := by
  have hhead : ∀ n : Nat, ∀ t, formatNat n ≠ '-' :: t := by
    intro n t e
    have hm : '-' ∈ formatDigits (n + 1) n [] := by
      show '-' ∈ formatNat n
      rw [e]; exact List.mem_cons_self _ _
    obtain ⟨d, hd, hc⟩ := formatDigits_digits _ _ _ hm
    exact (digitChar_ne d hd).1 hc.symm
  unfold formatInt at h
  split at h <;> split at h
  · have := formatNat_injective _ _ (List.cons.inj h).2
    omega
  · exact absurd h.symm (hhead _ _)
  · exact absurd h (hhead _ _)
  · have := formatNat_injective _ _ h
    omega

/-- Within one run the wrapped sums `startNum+i` of different positions differ. -/
theorem wrapInt_add_injective (startNum : Int) (i j : Nat) (hi : i < 2 ^ 63) (hj : j < 2 ^ 63)
    (h : wrapInt (startNum + i) = wrapInt (startNum + j)) : i = j := by
  unfold wrapInt at h
  norm_num at hi hj h
  omega

theorem wrapInt_of_range (z : Int) (h1 : -(2 ^ 63) ≤ z) (h2 : z < 2 ^ 63) : wrapInt z = z := by
  unfold wrapInt
  norm_num at h1 h2 ⊢
  omega

/-- Two texts without a dot, each followed by nothing or by a part that starts
with a dot, are equal when the wholes are. -/
theorem eq_of_append_dot : ∀ (a b x y : GoString), '.' ∉ a → '.' ∉ b →
    (x = [] ∨ x.head? = some '.') → (y = [] ∨ y.head? = some '.') → a ++ x = b ++ y → a = b := by
  intro a
  induction a with
  | nil =>
    intro b x y _ hb hx hy h
    cases b with
    | nil => rfl
    | cons c b =>
      exfalso
      have hc : c ≠ '.' := fun e => hb (e ▸ List.mem_cons_self _ _)
      rcases hx with hx | hx
      · subst hx; simp at h
      · cases x with
        | nil => simp at hx
        | cons d x =>
          simp at hx h
          exact hc (h.1.symm.trans hx)
  | cons c a ih =>
    intro b x y ha hb hx hy h
    have hc : c ≠ '.' := fun e => ha (e ▸ List.mem_cons_self _ _)
    have hr : '.' ∉ a := fun e => ha (List.mem_cons_of_mem _ e)
    cases b with
    | nil =>
      exfalso
      rcases hy with hy | hy
      · subst hy; simp at h
      · cases y with
        | nil => simp at hy
        | cons d y =>
          simp at hy h
          exact hc (h.1.trans hy)
    | cons d b =>
      simp only [List.cons_append, List.cons.injEq] at h
      have hb2 : '.' ∉ b := fun e => hb (List.mem_cons_of_mem _ e)
      rw [h.1, ih b x y hr hb2 hx hy h.2]

/-! ## Categories -/

/-- The text `{index}{ext}` after a text without `{`, with `{index}` replaced. -/
theorem replace_index (pfx dec : GoString) (h : '{' ∉ pfx) :
    ReplaceAll (pfx ++ "{index}{ext}".toList) "{index}".toList dec = pfx ++ dec ++ "{ext}".toList := by
  have hI : Index (pfx ++ "{index}{ext}".toList) "{index}".toList = some pfx.length := by
    have := Index_append_of_not_mem '{' "index\x7d".toList pfx "{index}{ext}".toList h
    have h0 : Index "{index}{ext}".toList ('{' :: "index\x7d".toList) = some 0 := by decide
    rw [h0] at this
    exact this.trans (by simp)
  rw [ReplaceAll_of_index_some _ _ _ (by decide) _ hI]
  have hd : List.drop (pfx.length + "{index}".toList.length) (pfx ++ "{index}{ext}".toList) =
      "{ext}".toList := by
    rw [List.drop_append]; rfl
  rw [hd, List.take_left']
  · rw [ReplaceAll_of_index_none _ _ _ (by decide) (by decide)]
  · rfl

/-- A text without `{` followed by `{ext}` holds no `{name}`. -/
theorem replace_name (body base : GoString) (h : '{' ∉ body) :
    ReplaceAll (body ++ "{ext}".toList) "{name}".toList base = body ++ "{ext}".toList := by
  apply ReplaceAll_of_index_none _ _ _ (by decide)
  have := Index_append_of_not_mem '{' "name\x7d".toList body "{ext}".toList h
  have h0 : Index "{ext}".toList ('{' :: "name\x7d".toList) = none := by decide
  rw [h0] at this
  exact this

/-- A text without `{` followed by `{ext}`, with `{ext}` replaced. -/
theorem replace_ext (body ext : GoString) (h : '{' ∉ body) :
    ReplaceAll (body ++ "{ext}".toList) "{ext}".toList ext = body ++ ext := by
  have hI : Index (body ++ "{ext}".toList) "{ext}".toList = some body.length := by
    have := Index_append_of_not_mem '{' "ext\x7d".toList body "{ext}".toList h
    have h0 : Index "{ext}".toList ('{' :: "ext\x7d".toList) = some 0 := by decide
    rw [h0] at this
    exact this.trans (by simp)
  rw [ReplaceAll_of_index_some _ _ _ (by decide) _ hI]
  have hd : List.drop (body.length + "{ext}".toList.length) (body ++ "{ext}".toList) = [] := by
    rw [List.drop_append]; rfl
  rw [hd, List.take_left']
  · rw [ReplaceAll_of_index_none _ _ _ (by decide) (by decide)]; simp
  · rfl

/-- The new name for a pattern `pfx{index}{ext}` whose `pfx` holds no `{`. -/
theorem newFilename_index_ext (pfx : GoString) (h : '{' ∉ pfx) (startNum : Int) (i : Nat)
    (name : GoString) :
    newFilename (pfx ++ "{index}{ext}".toList) startNum i name =
      pfx ++ formatInt (wrapInt (startNum + i)) ++ Ext name := by
  have hdec := (formatInt_not_mem (wrapInt (startNum + i))).2.1
  have hbody : '{' ∉ pfx ++ formatInt (wrapInt (startNum + i)) := by
    simp only [List.mem_append, not_or]; exact ⟨h, hdec⟩
  have hsub : substituted (pfx ++ "{index}{ext}".toList) startNum i name =
      pfx ++ formatInt (wrapInt (startNum + i)) ++ Ext name := by
    unfold substituted
    simp only []
    rw [replace_index pfx _ h, replace_name _ _ hbody, replace_ext _ _ hbody]
  unfold newFilename
  simp only [hsub]
  split
  · rename_i hc
    have hnot : '.' ∉ pfx ++ formatInt (wrapInt (startNum + i)) ++ Ext name := by
      intro hm
      have hC : Contains (pfx ++ formatInt (wrapInt (startNum + i)) ++ Ext name) ".".toList = true :=
        (Contains_dot_iff _).mpr hm
      rw [hC] at hc
      exact absurd hc (by decide)
    rcases Ext_cases name with he | ⟨stem, e, _, _, _, he⟩
    · rw [he]; simp
    · exfalso; apply hnot; rw [he]; simp
  · rfl

/-- C3, the claim as stated fails: with start index 9223372036854775807 the
second file (ordinal 1) does not get the decimal of the sum
9223372036854775808 but, the sum being a Go `int`, of -9223372036854775808. -/
theorem substituted_sum_overflows :
    substituted "img-{index}{ext}".toList 9223372036854775807 1 "b.jpg".toList
        = "img--9223372036854775808.jpg".toList ∧
      substituted "img-{index}{ext}".toList 9223372036854775807 1 "b.jpg".toList ≠
        everyReplaced "{ext}".toList (Ext "b.jpg".toList) 0
          (everyReplaced "{name}".toList (TrimSuffix "b.jpg".toList (Ext "b.jpg".toList)) 0
            (everyReplaced "{index}".toList (formatInt (9223372036854775807 + 1)) 0
              "img-{index}{ext}".toList)) := by
  constructor <;> decide

/-- C3, amended: before the extension is appended, the name bulkrename computes
for the file at ordinal `i` is the pattern with every `{index}` replaced by the
decimal of `startNum + i` taken as a 64-bit Go `int` (the sum itself whenever it
lies in `[-2^63, 2^63)`), then every `{name}` of that result replaced by the
base name, then every `{ext}` of that result replaced by the extension with its
dot; base name and extension together are the file name. -/
theorem substituted_spec (pattern : GoString) (startNum : Int) (i : Nat) (name : GoString) :
    substituted pattern startNum i name =
      everyReplaced "{ext}".toList (Ext name) 0
        (everyReplaced "{name}".toList (TrimSuffix name (Ext name)) 0
          (everyReplaced "{index}".toList (formatInt (wrapInt (startNum + i))) 0 pattern)) ∧
    TrimSuffix name (Ext name) ++ Ext name = name ∧
    (-(2 ^ 63) ≤ startNum + i → startNum + i < 2 ^ 63 →
      wrapInt (startNum + i) = startNum + i) := by
  refine ⟨?_, TrimSuffix_append_Ext name, wrapInt_of_range _⟩
  unfold substituted
  simp only []
  rw [ReplaceAll_eq_everyReplaced _ _ _ (by decide), ReplaceAll_eq_everyReplaced _ _ _ (by decide),
    ReplaceAll_eq_everyReplaced _ _ _ (by decide)]

/-- The witness of C3: `photo.jpg` with pattern `img-{index}{ext}` and start index
5 yields `img-5.jpg`, and an `{ext}` brought in by the base name is replaced. -/
theorem substituted_spec_witness :
    substituted "img-{index}{ext}".toList 5 0 "photo.jpg".toList = "img-5.jpg".toList ∧
    substituted "{name}".toList 1 0 "{ext}.txt".toList = ".txt".toList ∧
    wrapInt (5 + (0 : Nat)) = 5 + (0 : Nat) :=
  ⟨((substituted_spec "img-{index}{ext}".toList 5 0 "photo.jpg".toList).1).trans (by decide),
    ((substituted_spec "{name}".toList 1 0 "{ext}.txt".toList).1).trans (by decide),
    (substituted_spec "img-{index}{ext}".toList 5 0 "photo.jpg".toList).2.2 (by decide) (by decide)⟩

/-- C4: the final name bulkrename computes is the substituted text followed by
the extension of the file when the substituted text holds no `.`, and is the
substituted text when it holds one; `{name}-copy` applied to `report.pdf`
yields `report-copy.pdf`. -/
theorem newFilename_appends_ext (pattern : GoString) (startNum : Int) (i : Nat) (name : GoString) :
    ('.' ∉ substituted pattern startNum i name →
      newFilename pattern startNum i name = substituted pattern startNum i name ++ Ext name) ∧
    ('.' ∈ substituted pattern startNum i name →
      newFilename pattern startNum i name = substituted pattern startNum i name) ∧
    newFilename "{name}-copy".toList startNum i "report.pdf".toList = "report-copy.pdf".toList := by
  refine ⟨?_, ?_, ?_⟩
  · intro h
    have hc : Contains (substituted pattern startNum i name) ".".toList = false := by
      cases hC : Contains (substituted pattern startNum i name) ".".toList with
      | false => rfl
      | true => exact absurd ((Contains_dot_iff _).mp hC) h
    unfold newFilename
    simp only [hc]
    rfl
  · intro h
    have hc : Contains (substituted pattern startNum i name) ".".toList = true :=
      (Contains_dot_iff _).mpr h
    unfold newFilename
    simp only [hc]
    rfl
  · have hs : substituted "{name}-copy".toList startNum i "report.pdf".toList =
        "report-copy".toList := by
      have hidx : Index "{name}-copy".toList "{index}".toList = none := by decide
      unfold substituted
      simp only []
      rw [ReplaceAll_of_index_none _ _ _ (by decide) hidx]
      decide
    have hc : Contains (substituted "{name}-copy".toList startNum i "report.pdf".toList)
        ".".toList = false := by rw [hs]; decide
    simp only [newFilename, hc]
    rw [hs]; decide

/-- The witness of C4: `report.pdf` under `{name}-copy`, and `photo.jpg` under
`img-{index}{ext}`. -/
theorem newFilename_appends_ext_witness :
    newFilename "{name}-copy".toList 1 0 "report.pdf".toList =
        substituted "{name}-copy".toList 1 0 "report.pdf".toList ++ ".pdf".toList ∧
    newFilename "img-{index}{ext}".toList 5 0 "photo.jpg".toList =
        substituted "img-{index}{ext}".toList 5 0 "photo.jpg".toList :=
  ⟨(newFilename_appends_ext "{name}-copy".toList 1 0 "report.pdf".toList).1 (by decide),
    (newFilename_appends_ext "img-{index}{ext}".toList 5 0 "photo.jpg".toList).2.1 (by decide)⟩

/-! ### The destinations of bulkrename -/

theorem splitOn_append_tail (t : GoString) (ht : '/' ∉ t) : ∀ pfx : GoString,
    ∃ init last, pfx.splitOn '/' = init ++ [last] ∧ (pfx ++ t).splitOn '/' = init ++ [last ++ t] := by
  have hsingle : t.splitOn '/' = [t] := by
    unfold List.splitOn
    apply List.splitOnP_eq_single
    intro x hx hp
    have : x = '/' := by simpa using hp
    exact ht (this ▸ hx)
  intro pfx
  induction pfx with
  | nil => exact ⟨[], [], by simp [List.splitOn, List.splitOnP_nil], by simpa using hsingle⟩
  | cons x pfx ih =>
    obtain ⟨init, last, h1, h2⟩ := ih
    unfold List.splitOn at h1 h2 ⊢
    rw [List.cons_append, List.splitOnP_cons, List.splitOnP_cons, h1, h2]
    by_cases hx : (x == '/') = true
    · simp only [hx, if_true]
      exact ⟨[] :: init, last, by simp, by simp⟩
    · simp only [hx, Bool.false_eq_true, if_false]
      cases init with
      | nil => exact ⟨[], x :: last, by simp [List.modifyHead], by simp [List.modifyHead]⟩
      | cons a init =>
        exact ⟨(x :: a) :: init, last, by simp [List.modifyHead], by simp [List.modifyHead]⟩

theorem Join_append_tail (p : Path) (pfx : GoString) :
    ∃ (q : Path) (last : GoString), ∀ t2 : GoString, '/' ∉ t2 → (∃ c ∈ t2, c ≠ '.') →
      Join p (pfx ++ t2) = ⟨q.rooted, q.elems ++ [last ++ t2]⟩ := by
  obtain ⟨init, last, h1, _⟩ := splitOn_append_tail [] (by simp) pfx
  refine ⟨init.foldl Path.push p, last, ?_⟩
  intro t2 ht2 hc2
  obtain ⟨init2, last2, h3, h4⟩ := splitOn_append_tail t2 ht2 pfx
  have hinj := List.append_inj' (h1.symm.trans h3) rfl
  have hi : init2 = init := hinj.1.symm
  have hl : last2 = last := by simpa using hinj.2.symm
  subst hi hl
  unfold Join
  rw [h4, List.foldl_append]
  obtain ⟨c, hct, hcd⟩ := hc2
  have hmem : c ∈ last2 ++ t2 := List.mem_append.mpr (Or.inr hct)
  have hne1 : last2 ++ t2 ≠ [] := List.ne_nil_of_mem hmem
  have hne2 : last2 ++ t2 ≠ ['.'] := by
    intro e; rw [e] at hmem; simp at hmem; exact hcd hmem
  have hne3 : last2 ++ t2 ≠ ['.', '.'] := by
    intro e; rw [e] at hmem; simp at hmem; exact hcd hmem
  simp [Path.push, hne1, hne2, hne3]

theorem Ext_head (n : GoString) : Ext n = [] ∨ (Ext n).head? = some '.' := by
  rcases Ext_cases n with he | ⟨_, e, _, _, _, he⟩
  · exact Or.inl he
  · right; rw [he]; rfl

theorem Ext_no_separator (n : GoString) : '/' ∉ Ext n := by
  rcases Ext_cases n with he | ⟨_, e, _, _, h2, he⟩
  · rw [he]; simp
  · rw [he]
    intro h
    rcases List.mem_cons.mp h with h | h
    · exact absurd h (by decide)
    · exact h2 h

/-- The numbered part of two new names is the same only at the same position. -/
theorem index_ext_injective (startNum : Int) (i j : Nat) (a b : GoString)
    (hi : i < 2 ^ 63) (hj : j < 2 ^ 63)
    (h : formatInt (wrapInt (startNum + i)) ++ Ext a = formatInt (wrapInt (startNum + j)) ++ Ext b) :
    i = j := by
  have h3 := eq_of_append_dot _ _ _ _ (formatInt_not_mem _).1 (formatInt_not_mem _).1
    (Ext_head a) (Ext_head b) h
  exact wrapInt_add_injective startNum i j hi hj (formatInt_injective _ _ h3)

theorem index_ext_tail (z : Int) (a : GoString) :
    '/' ∉ formatInt z ++ Ext a ∧ ∃ c ∈ formatInt z ++ Ext a, c ≠ '.' := by
  constructor
  · intro h
    rcases List.mem_append.mp h with h | h
    · exact (formatInt_not_mem z).2.2 h
    · exact Ext_no_separator a h
  · cases hf : formatInt z with
    | nil => exact absurd hf (formatInt_ne_nil z)
    | cons c r =>
      refine ⟨c, by simp, ?_⟩
      intro e
      have := (formatInt_not_mem z).1
      rw [hf, e] at this
      simp at this

/-- C10: for a pattern `pfx{index}{ext}` whose `pfx` holds no `{`, the new names
bulkrename computes for two different positions of a Go slice differ, whatever
the names of the two files, and so do the two destination paths. -/
theorem newFilename_injective (pfx : GoString) (startNum : Int) (i j : Nat) (a b : GoString)
    (sourcePath : Path) (hpfx : '{' ∉ pfx) (hi : i < 2 ^ 63) (hj : j < 2 ^ 63) (hij : i ≠ j) :
    newFilename (pfx ++ "{index}{ext}".toList) startNum i a ≠
      newFilename (pfx ++ "{index}{ext}".toList) startNum j b ∧
    Join sourcePath (newFilename (pfx ++ "{index}{ext}".toList) startNum i a) ≠
      Join sourcePath (newFilename (pfx ++ "{index}{ext}".toList) startNum j b) := by
  rw [newFilename_index_ext pfx hpfx, newFilename_index_ext pfx hpfx]
  rw [List.append_assoc, List.append_assoc]
  constructor
  · intro h
    exact hij (index_ext_injective startNum i j a b hi hj (List.append_cancel_left h))
  · obtain ⟨q, last, hq⟩ := Join_append_tail sourcePath pfx
    rw [hq _ (index_ext_tail _ a).1 (index_ext_tail _ a).2,
      hq _ (index_ext_tail _ b).1 (index_ext_tail _ b).2]
    intro h
    have h2 : q.elems ++ [last ++ (formatInt (wrapInt (startNum + i)) ++ Ext a)] =
        q.elems ++ [last ++ (formatInt (wrapInt (startNum + j)) ++ Ext b)] :=
      congrArg Path.elems h
    have h3 := List.append_cancel_left h2
    simp only [List.cons.injEq, and_true] at h3
    exact hij (index_ext_injective startNum i j a b hi hj (List.append_cancel_left h3))

/-- The witness of C10: `img-{index}{ext}` from 5 on two files called alike. -/
theorem newFilename_injective_witness :
    newFilename ("img-".toList ++ "{index}{ext}".toList) 5 0 "photo.jpg".toList ≠
      newFilename ("img-".toList ++ "{index}{ext}".toList) 5 1 "photo.jpg".toList ∧
    Join (Clean "dir".toList)
        (newFilename ("img-".toList ++ "{index}{ext}".toList) 5 0 "photo.jpg".toList) ≠
      Join (Clean "dir".toList)
        (newFilename ("img-".toList ++ "{index}{ext}".toList) 5 1 "photo.jpg".toList) :=
  newFilename_injective "img-".toList 5 0 1 "photo.jpg".toList "photo.jpg".toList
    (Clean "dir".toList) (by decide) (by norm_num) (by norm_num) (by decide)

/-! ## The folder of sortbydate -/

/-- C5, the claim as stated fails: a modification time in the year 10000 gives a
folder name of nine characters, the year taking five. -/
theorem formatDayMonthYear_year_10000 :
    formatDayMonthYear ⟨253402300800000000000, 10000, 1, 1, 0, 0, 0, 0⟩ = "010110000".toList ∧
      (formatDayMonthYear ⟨253402300800000000000, 10000, 1, 1, 0, 0, 0, 0⟩).length ≠ 8 := by
  constructor <;> decide

/-- C5, amended: for a modification time whose year lies in 0..9999, the folder
name of sortbydate is the day of the month as two digits, then the month as two
digits, then the year as four digits, nothing in between; and for every two
modification times on the same calendar day, whatever the time of day and the
year, the folder names are equal. -/
theorem formatDayMonthYear_spec (t : Time) :
    (1 ≤ t.day → t.day ≤ 31 → 1 ≤ t.month → t.month ≤ 12 → 0 ≤ t.year → t.year ≤ 9999 →
      formatDayMonthYear t =
        [digitChar (t.day / 10), digitChar (t.day % 10),
         digitChar (t.month / 10), digitChar (t.month % 10),
         digitChar (t.year.toNat / 1000), digitChar (t.year.toNat / 100 % 10),
         digitChar (t.year.toNat / 10 % 10), digitChar (t.year.toNat % 10)]) ∧
    (∀ u : Time, u.year = t.year → u.month = t.month → u.day = t.day →
      formatDayMonthYear u = formatDayMonthYear t) := by
  constructor
  · intro hd1 hd2 hm1 hm2 hy1 hy2
    have hday : ((t.day : Int)).natAbs = t.day := Int.natAbs_ofNat _
    have hmon : ((t.month : Int)).natAbs = t.month := Int.natAbs_ofNat _
    have hyear : t.year.natAbs = t.year.toNat := by omega
    have hy3 : t.year.toNat < 10000 := by omega
    have hdn : ¬ ((t.day : Int) < 0) := by omega
    have hmn : ¬ ((t.month : Int) < 0) := by omega
    have hyn : ¬ (t.year < 0) := by omega
    have hd3 : t.day < 100 := by omega
    have hm3 : t.month < 100 := by omega
    simp [formatDayMonthYear, appendInt, hday, hmon, hyear, hdn, hmn, hyn, hd3, hm3, hy3]
  · intro u hy hm hd
    simp [formatDayMonthYear, hy, hm, hd]

/-- The witness of C5: 7 March 2024, early and late in the day. -/
theorem formatDayMonthYear_spec_witness :
    formatDayMonthYear ⟨1709773323000000000, 2024, 3, 7, 1, 2, 3, 0⟩ = "07032024".toList ∧
    formatDayMonthYear ⟨1709855999000000000, 2024, 3, 7, 23, 59, 59, 0⟩ =
      formatDayMonthYear ⟨1709773323000000000, 2024, 3, 7, 1, 2, 3, 0⟩ :=
  ⟨((formatDayMonthYear_spec ⟨1709773323000000000, 2024, 3, 7, 1, 2, 3, 0⟩).1
      (by decide) (by decide) (by decide) (by decide) (by decide) (by decide)).trans (by decide),
    (formatDayMonthYear_spec ⟨1709773323000000000, 2024, 3, 7, 1, 2, 3, 0⟩).2
      ⟨1709855999000000000, 2024, 3, 7, 23, 59, 59, 0⟩ rfl rfl rfl⟩

/-! ## The order of list -/

theorem insertBack_perm {α : Type} (less : α → α → Bool) (x : α) :
    ∀ l : List α, (insertBack less x l).Perm (x :: l) := by
  intro l
  induction l with
  | nil => exact List.Perm.refl _
  | cons y ys ih =>
    unfold insertBack
    split
    · exact ((List.Perm.cons y ih).trans (List.Perm.swap x y ys))
    · exact List.Perm.refl _

theorem foldl_insertBack_perm {α : Type} (less : α → α → Bool) :
    ∀ (l acc : List α), (l.foldl (fun sorted x => insertBack less x sorted) acc).Perm (l.reverse ++ acc) := by
  intro l
  induction l with
  | nil => intro acc; exact List.Perm.refl _
  | cons x xs ih =>
    intro acc
    simp only [List.foldl_cons, List.reverse_cons, List.append_assoc, List.singleton_append]
    exact (ih _).trans (List.Perm.append_left _ (insertBack_perm less x acc))

/-- The slice the insertion sort leaves holds the elements of the slice, each as
often. -/
theorem insertionSort_perm {α : Type} (less : α → α → Bool) (l : List α) :
    (insertionSort less l).Perm l := by
  unfold insertionSort
  have := foldl_insertBack_perm less l []
  simp only [List.append_nil] at this
  exact (List.reverse_perm _).trans (this.trans (List.reverse_perm _))

theorem insertBack_pairwise {α : Type} (less : α → α → Bool) (hless : StrictWeakOrder less)
    (x : α) : ∀ l : List α, l.Pairwise (fun a b => less a b = false) →
      (insertBack less x l).Pairwise (fun a b => less a b = false) := by
  obtain ⟨hirr, htrans, hneg⟩ := hless
  intro l
  induction l with
  | nil => intro _; simp [insertBack]
  | cons y ys ih =>
    intro h
    rw [List.pairwise_cons] at h
    unfold insertBack
    split
    · rename_i hlt
      rw [List.pairwise_cons]
      refine ⟨?_, ih h.2⟩
      intro z hz
      have hz2 : z ∈ x :: ys := (List.Perm.mem_iff (insertBack_perm _ x ys)).mp hz
      rcases List.mem_cons.mp hz2 with hz3 | hz3
      · rw [hz3]
        cases hyx : less y x with
        | false => rfl
        | true =>
          have := htrans x y x hlt hyx
          rw [hirr x] at this
          cases this
      · exact h.1 z hz3
    · rename_i hlt
      have hxy : less x y = false := by simpa using hlt
      rw [List.pairwise_cons]
      refine ⟨?_, List.pairwise_cons.mpr h⟩
      intro z hz
      rcases List.mem_cons.mp hz with hz | hz
      · rw [hz]; exact hxy
      · exact hneg x y z hxy (h.1 z hz)

theorem foldl_insertBack_pairwise {α : Type} (less : α → α → Bool)
    (hless : StrictWeakOrder less) :
    ∀ (l acc : List α), acc.Pairwise (fun a b => less a b = false) →
      (l.foldl (fun sorted x => insertBack less x sorted) acc).Pairwise
        (fun a b => less a b = false) := by
  intro l
  induction l with
  | nil => intro acc h; exact h
  | cons x xs ih =>
    intro acc h
    exact ih _ (insertBack_pairwise less hless x acc h)

/-- The library's insertion sort does what the documentation of `sort.Slice`
promises. -/
theorem insertionSort_sorts {α : Type} :
    SortsSlice (fun (less : α → α → Bool) (files : List α) => insertionSort less files) := by
  intro less hless files
  refine ⟨insertionSort_perm less files, ?_⟩
  unfold insertionSort
  rw [List.pairwise_reverse]
  exact foldl_insertBack_pairwise less hless files [] List.Pairwise.nil

/-- Comparing by a key that is linearly ordered is a strict weak ordering. -/
theorem strictWeakOrder_of_key {α κ : Type} [LinearOrder κ] (key : α → κ) :
    StrictWeakOrder (fun a b : α => decide (key a < key b)) := by
  refine ⟨fun a => by simp, ?_, ?_⟩
  · intro a b c h1 h2
    simp only [decide_eq_true_eq] at h1 h2 ⊢
    exact lt_trans h1 h2
  · intro a b c h1 h2
    simp only [decide_eq_false_iff_not, not_lt] at h1 h2 ⊢
    exact le_trans h2 h1

/-- C7: when list has collected `files` and the sort option is `name`, `size` or
`time`, it reports, after the header line, a permutation of `files` in which no
entry stands before an entry with a strictly smaller key: the name in
lexicographic order, the size, or the instant of modification.  Go `sort.Slice`
is the argument `sortSlice`; the statement holds for every `sortSlice` that
does what the documentation of `sort.Slice` promises. -/
theorem list_reports_sorted {σ : Type} (os : OS σ)
    (sortSlice : (FileInfo → FileInfo → Bool) → List FileInfo → List FileInfo)
    (fuel : Nat) (ctx : Context) (st : St σ)
    (sourcePath : GoString) (files : List FileInfo)
    (hlib : SortsSlice sortSlice)
    (hdir : checkDir os ctx st.fs = Except.ok sourcePath)
    (hfiles : collectFiles os fuel st.fs (Clean sourcePath) ctx.recursive = Except.ok (some files))
    (hsort : ctx.sort = "name".toList ∨ ctx.sort = "size".toList ∨ ctx.sort = "time".toList) :
    ∃ sorted : List FileInfo,
      ListCommand.Execute os sortSlice fuel ctx st =
        (⟨st.fs, st.out ++ "Files:".toList :: sorted.map listLine, st.trace⟩, Outcome.ok) ∧
      sorted.Perm files ∧
      (ctx.sort = "name".toList → sorted.Pairwise (fun a b => ¬ b.name < a.name)) ∧
      (ctx.sort = "size".toList → sorted.Pairwise (fun a b => ¬ b.size < a.size)) ∧
      (ctx.sort = "time".toList →
        sorted.Pairwise (fun a b => ¬ b.modTime.instant < a.modTime.instant)) := by
  have hns : "name".toList ≠ "size".toList := by decide
  have hnt : "name".toList ≠ "time".toList := by decide
  have hst : "size".toList ≠ "time".toList := by decide
  have hname := hlib _ (strictWeakOrder_of_key (fun f : FileInfo => f.name)) files
  have hsize := hlib _ (strictWeakOrder_of_key (fun f : FileInfo => f.size)) files
  have htime := hlib _ (strictWeakOrder_of_key (fun f : FileInfo => f.modTime.instant)) files
  rcases hsort with h | h | h
  · refine ⟨sortSlice (fun fi fj => decide (fi.name < fj.name)) files, ?_, hname.1,
      fun _ => hname.2.imp (fun hab => by simpa using hab),
      fun h2 => absurd (h.symm.trans h2) hns, fun h2 => absurd (h.symm.trans h2) hnt⟩
    simp only [ListCommand.Execute, hdir, hfiles, sortFiles, h, if_true]
  · refine ⟨sortSlice (fun fi fj => decide (fi.size < fj.size)) files, ?_, hsize.1,
      fun h2 => absurd (h2.symm.trans h) hns,
      fun _ => hsize.2.imp (fun hab => by simpa using hab),
      fun h2 => absurd (h.symm.trans h2) hst⟩
    simp only [ListCommand.Execute, hdir, hfiles, sortFiles, h, hns.symm, if_true, if_false]
  · refine ⟨sortSlice (fun fi fj => fi.modTime.Before fj.modTime) files, ?_, htime.1,
      fun h2 => absurd (h2.symm.trans h) hnt, fun h2 => absurd (h2.symm.trans h) hst,
      fun _ => htime.2.imp (fun hab => by simpa using hab)⟩
    simp only [ListCommand.Execute, hdir, hfiles, sortFiles, h, hnt.symm, hst.symm, if_true, if_false]

/-- The witness of C7: with `a.txt` (10 bytes) and `b.txt` (5 bytes), `--sort size`
reports `b.txt` before `a.txt`; on a slice of two elements `sort.Slice` runs
its insertion sort. -/
theorem list_reports_sorted_witness :
    (∃ sorted : List FileInfo,
      ListCommand.Execute memOS (fun less files => insertionSort less files) 1 listingCtx
          ⟨listingFS, [], []⟩ =
        (⟨listingFS, [] ++ "Files:".toList :: sorted.map listLine, []⟩, Outcome.ok) ∧
      sorted.Perm
        [⟨"a.txt".toList, 10, ⟨1709773323000000000, 2024, 3, 7, 1, 2, 3, 0⟩, false⟩,
         ⟨"b.txt".toList, 5, ⟨1709773323000000000, 2024, 3, 7, 1, 2, 3, 0⟩, false⟩] ∧
      (listingCtx.sort = "name".toList → sorted.Pairwise (fun a b => ¬ b.name < a.name)) ∧
      (listingCtx.sort = "size".toList → sorted.Pairwise (fun a b => ¬ b.size < a.size)) ∧
      (listingCtx.sort = "time".toList →
        sorted.Pairwise (fun a b => ¬ b.modTime.instant < a.modTime.instant))) ∧
    (ListCommand.Execute memOS (fun less files => insertionSort less files) 1 listingCtx
        ⟨listingFS, [], []⟩).1.out =
      ["Files:".toList,
       "- b.txt (Size: 5 bytes, Modified: 2024-03-07T01:02:03Z)".toList,
       "- a.txt (Size: 10 bytes, Modified: 2024-03-07T01:02:03Z)".toList] :=
  ⟨list_reports_sorted memOS (fun less files => insertionSort less files) 1 listingCtx
      ⟨listingFS, [], []⟩ "dir".toList _ insertionSort_sorts rfl rfl (Or.inr (Or.inl rfl)),
    by decide⟩

/-! ## The dry run of bulkrename -/

theorem renameLoop_dryRun {σ : Type} (os : OS σ) (sourcePath : Path) (pattern : GoString)
    (startNum : Int) : ∀ (files : List DirEntry) (i : Nat) (st : St σ),
    renameLoop os sourcePath pattern true startNum i files st =
      (⟨st.fs, st.out ++ previewLines sourcePath pattern startNum i files, st.trace⟩, Outcome.ok) := by
  intro files
  induction files with
  | nil => intro i st; simp [renameLoop, previewLines]
  | cons f rest ih =>
    intro i st
    simp only [renameLoop, if_true, previewLines]
    rw [ih]
    simp

theorem previewLines_getElem? (sourcePath : Path) (pattern : GoString) (startNum : Int) :
    ∀ (files : List DirEntry) (i k : Nat) (file : DirEntry), files[k]? = some file →
      (previewLines sourcePath pattern startNum i files)[k]? =
        some (previewLine sourcePath pattern startNum (i + k) file) := by
  intro files
  induction files with
  | nil => intro i k file h; simp at h
  | cons f rest ih =>
    intro i k file h
    cases k with
    | zero => simp at h; simp [previewLines, h]
    | succ k =>
      simp at h
      simp only [previewLines, List.getElem?_cons_succ]
      rw [ih (i + 1) k file h]
      congr 2
      omega

/-- C8: with the preview flag set, bulkrename leaves the filesystem as it is and
makes no changing call; when it reaches the loop it ends with nil and prints,
for the files of the listing in order, lines that depend on the path, the
listing, the pattern and the start index only, the line of the file at ordinal
`k` naming the new file name computed for `startNum + k`; run again on the
state it left, it prints the same lines. -/
theorem dryRun_frame {σ : Type} (os : OS σ) (ctx : Context) (st : St σ) (h : ctx.dryRun = true) :
    (BulkRenameCommand.Execute os ctx st).1.fs = st.fs ∧
    (BulkRenameCommand.Execute os ctx st).1.trace = st.trace ∧
    (∀ (sourcePath pattern : GoString) (more : List GoString) (info : FileInfo)
        (entries : List DirEntry),
      ctx.args = sourcePath :: pattern :: more →
      os.stat st.fs (Clean sourcePath) = Except.ok info → info.isDir = true →
      os.readDir st.fs (Clean sourcePath) = Except.ok entries →
      BulkRenameCommand.Execute os ctx st =
          (⟨st.fs, st.out ++ previewLines (Clean sourcePath) pattern ctx.start 0
            (entries.filter (fun entry => !entry.isDir)), st.trace⟩, Outcome.ok) ∧
        ∀ (k : Nat) (file : DirEntry),
          (entries.filter (fun entry => !entry.isDir))[k]? = some file →
          (previewLines (Clean sourcePath) pattern ctx.start 0
            (entries.filter (fun entry => !entry.isDir)))[k]? =
            some ("Would rename: ".toList ++ (Join (Clean sourcePath) file.name).toString ++
              " -> ".toList ++
              (Join (Clean sourcePath) (newFilename pattern ctx.start k file.name)).toString)) ∧
    (BulkRenameCommand.Execute os ctx
        ⟨(BulkRenameCommand.Execute os ctx ⟨st.fs, [], []⟩).1.fs, [], []⟩).1.out =
      (BulkRenameCommand.Execute os ctx ⟨st.fs, [], []⟩).1.out ∧
    (BulkRenameCommand.Execute os ctx
        ⟨(BulkRenameCommand.Execute os ctx ⟨st.fs, [], []⟩).1.fs, [], []⟩).2 =
      (BulkRenameCommand.Execute os ctx ⟨st.fs, [], []⟩).2 := by
  have hframe : ∀ s : St σ, (BulkRenameCommand.Execute os ctx s).1.fs = s.fs ∧
      (BulkRenameCommand.Execute os ctx s).1.trace = s.trace := by
    intro s
    unfold BulkRenameCommand.Execute
    split
    · split
      · exact ⟨rfl, rfl⟩
      · split
        · exact ⟨rfl, rfl⟩
        · split
          · exact ⟨rfl, rfl⟩
          · rw [h, renameLoop_dryRun]; exact ⟨rfl, rfl⟩
    · exact ⟨rfl, rfl⟩
  refine ⟨(hframe st).1, (hframe st).2, ?_, ?_, ?_⟩
  · intro sourcePath pattern more info entries hargs hstat hdir hread
    constructor
    · simp only [BulkRenameCommand.Execute, hargs, hstat, hdir, hread, h]
      rw [renameLoop_dryRun]
      simp
    · intro k file hk
      have := previewLines_getElem? (Clean sourcePath) pattern ctx.start _ 0 k file hk
      rw [this]
      simp [previewLine]
  · have h1 := (hframe ⟨st.fs, [], []⟩).1
    simp only [] at h1
    rw [h1]
  · have h1 := (hframe ⟨st.fs, [], []⟩).1
    simp only [] at h1
    rw [h1]

/-- The witness of C8: two dry runs of `{name}_{index}` on three files. -/
theorem dryRun_frame_witness :
    (BulkRenameCommand.Execute memOS previewCtx ⟨blockedFS, [], []⟩).1.fs = blockedFS ∧
    (BulkRenameCommand.Execute memOS previewCtx ⟨blockedFS, [], []⟩).1.trace = [] ∧
    (BulkRenameCommand.Execute memOS previewCtx ⟨blockedFS, [], []⟩).1.out =
      ["Would rename: dir/a.txt -> dir/a_1.txt".toList,
       "Would rename: dir/b.pdf -> dir/b_2.pdf".toList,
       "Would rename: dir/c.txt -> dir/c_3.txt".toList] ∧
    (BulkRenameCommand.Execute memOS previewCtx
        ⟨(BulkRenameCommand.Execute memOS previewCtx ⟨blockedFS, [], []⟩).1.fs, [], []⟩).1.out =
      (BulkRenameCommand.Execute memOS previewCtx ⟨blockedFS, [], []⟩).1.out := by
  have h := dryRun_frame memOS previewCtx ⟨blockedFS, [], []⟩ rfl
  have h2 := (h.2.2.1 "dir".toList "{name}_{index}".toList [] ⟨"dir".toList, 4096, dirTime, true⟩
    [⟨"a.txt".toList, false⟩, ⟨"b.pdf".toList, false⟩, ⟨"c.txt".toList, false⟩, ⟨"pdf".toList, true⟩]
    rfl rfl rfl rfl).1
  refine ⟨h.1, h.2.1, ?_, h.2.2.2.1⟩
  rw [h2]
  decide

/-! ## The first error stops the walk -/

theorem infix_of_parts (a b c : GoString) : b <:+: a ++ b ++ c := ⟨a, c, rfl⟩

theorem Join_plain (p : Path) (name : GoString) (h : PlainName name) :
    Join p name = ⟨p.rooted, p.elems ++ [name]⟩ := by
  obtain ⟨h1, h2, h3, h4⟩ := h
  have hs : name.splitOn '/' = [name] := by
    unfold List.splitOn
    apply List.splitOnP_eq_single
    intro x hx hp
    have : x = '/' := by simpa using hp
    exact h4 (this ▸ hx)
  unfold Join
  rw [hs]
  simp [Path.push, h1, h2, h3]

theorem Dir_Join_plain (p : Path) (name : GoString) (h : PlainName name) :
    Dir (Join p name) = p := by
  rw [Join_plain p name h]
  cases p
  simp [Dir]

/-! ### The filesystem in memory -/

theorem MemFS.node_cons (fs : MemFS) (p q : Path) (n : Node) :
    MemFS.node ((p, n) :: fs) q =
      if q.elems = [] then some (Node.dir true) else if q = p then some n else fs.node q := by
  unfold MemFS.node
  split
  · rfl
  · rw [List.lookup_cons]
    by_cases h : q = p
    · subst h; simp
    · have : (q == p) = false := by simpa using h
      simp [this, h]

theorem MemFS.node_filter (fs : MemFS) (src dst q : Path) :
    MemFS.node (fs.filter (fun e => e.1 ≠ src ∧ e.1 ≠ dst)) q =
      if q.elems = [] then some (Node.dir true)
      else if q = src ∨ q = dst then none else fs.node q := by
  unfold MemFS.node
  split
  · rfl
  · induction fs with
    | nil => simp
    | cons a fs ih =>
      obtain ⟨p, n⟩ := a
      by_cases hk : p ≠ src ∧ p ≠ dst
      · rw [List.filter_cons_of_pos (by simpa using hk), List.lookup_cons, List.lookup_cons]
        by_cases hq : q = p
        · subst hq
          simp [hk.1, hk.2]
        · have : (q == p) = false := by simpa using hq
          simp only [this]
          exact ih
      · rw [List.filter_cons_of_neg (by simpa using hk), List.lookup_cons]
        by_cases hq : q = p
        · subst hq
          rw [ih]
          have : q = src ∨ q = dst := by
            by_contra hc
            exact hk ⟨fun e => hc (Or.inl e), fun e => hc (Or.inr e)⟩
          simp [this]
        · have : (q == p) = false := by simpa using hq
          simp only [this]
          exact ih

/-- A successful rename: the file is at the new place and gone from the old
one, and every other node is as before. -/
theorem MemFS.rename_ok (fs fs1 : MemFS) (src dst : Path) (hsrc : src.elems ≠ [])
    (hdst : dst.elems ≠ []) (h : MemFS.rename fs src dst = Except.ok fs1) :
    (∃ size modTime, fs.node src = some (Node.file size modTime)) ∧
    fs1.node dst = fs.node src ∧
    (src ≠ dst → fs1.node src = none) ∧
    (∀ q, q ≠ src → q ≠ dst → fs1.node q = fs.node q) := by
  unfold MemFS.rename at h
  split at h
  · cases h
  · cases h
  · rename_i size modTime hnode
    split at h
    · cases h
    · cases h
    · split at h
      · cases h
      · split at h
        · cases h
        · cases h
          refine ⟨⟨size, modTime, hnode⟩, ?_, ?_, ?_⟩
          · rw [MemFS.node_cons, hnode]; simp [hdst]
          · intro hne
            rw [MemFS.node_cons, MemFS.node_filter]
            simp [hsrc, hne]
          · intro q hq1 hq2
            rw [MemFS.node_cons, MemFS.node_filter]
            by_cases hq : q.elems = []
            · simp [hq, MemFS.node]
            · simp [hq, hq1, hq2]

theorem MemFS.mkdir_ok (fs fs1 : MemFS) (p : Path) (h : MemFS.mkdir fs p = Except.ok fs1) :
    fs1.node p = some (Node.dir true) ∧
    (∀ q x, fs.node q = some x → fs1.node q = some x) ∧
    (∀ q x, fs1.node q = some x → fs.node q = some x ∨ x = Node.dir true) := by
  unfold MemFS.mkdir at h
  split at h
  · cases h
  · rename_i hnone
    split at h
    · cases h
    · cases h
    · cases h
    · cases h
      have hp : p.elems ≠ [] := by
        intro he
        simp [MemFS.node, he] at hnone
      refine ⟨by rw [MemFS.node_cons]; simp [hp], ?_, ?_⟩
      · intro q x hq
        rw [MemFS.node_cons]
        by_cases hq0 : q.elems = []
        · simp [hq0]; simpa [MemFS.node, hq0] using hq
        · have : q ≠ p := by
            intro e; rw [e, hnone] at hq; cases hq
          simp [hq0, this, hq]
      · intro q x hq
        rw [MemFS.node_cons] at hq
        by_cases hq0 : q.elems = []
        · left; simpa [MemFS.node, hq0] using hq
        · by_cases hqp : q = p
          · right; simp [hq0, hqp] at hq; exact hq.symm
          · left; simpa [hq0, hqp] using hq

theorem MemFS.mkdirAllAux_ok : ∀ (n : Nat) (fs fs1 : MemFS) (p : Path),
    MemFS.mkdirAllAux n fs p = Except.ok fs1 →
      (∃ w, fs1.node p = some (Node.dir w)) ∧
      (∀ q x, fs.node q = some x → fs1.node q = some x) ∧
      (∀ q x, fs1.node q = some x → fs.node q = some x ∨ x = Node.dir true) := by
  intro n
  induction n with
  | zero =>
    intro fs fs1 p h
    unfold MemFS.mkdirAllAux at h
    split at h
    · rename_i w hw
      cases h
      exact ⟨⟨w, hw⟩, fun _ _ hq => hq, fun _ _ hq => Or.inl hq⟩
    · cases h
  | succ n ih =>
    intro fs fs1 p h
    unfold MemFS.mkdirAllAux at h
    split at h
    · rename_i w hw
      cases h
      exact ⟨⟨w, hw⟩, fun _ _ hq => hq, fun _ _ hq => Or.inl hq⟩
    · cases h
    · split at h
      · cases h
      · rename_i fs2 h2
        obtain ⟨_, hkeep, hnew⟩ := ih fs fs2 (Dir p) h2
        obtain ⟨hp, hkeep2, hnew2⟩ := MemFS.mkdir_ok fs2 fs1 p h
        refine ⟨⟨true, hp⟩, fun q x hq => hkeep2 q x (hkeep q x hq), ?_⟩
        intro q x hq
        rcases hnew2 q x hq with h' | h'
        · exact hnew q x h'
        · exact Or.inr h'

theorem Join_plain_inj (p q : Path) (a b : GoString) (ha : PlainName a) (hb : PlainName b)
    (h : Join p a = Join q b) : p = q ∧ a = b := by
  rw [Join_plain p a ha, Join_plain q b hb] at h
  simp only [Path.mk.injEq] at h
  obtain ⟨h1, h2⟩ := h
  obtain ⟨h3, h4⟩ := List.append_inj' h2 rfl
  refine ⟨?_, by simpa using h4⟩
  cases p
  cases q
  simp only [Path.mk.injEq]
  exact ⟨h1, h3⟩

theorem Join_plain_length (p : Path) (name : GoString) (h : PlainName name) :
    (Join p name).elems.length = p.elems.length + 1 := by
  rw [Join_plain p name h]
  simp

theorem Join_plain_ne (p : Path) (name : GoString) (h : PlainName name) : Join p name ≠ p := by
  intro e
  have := Join_plain_length p name h
  rw [e] at this
  omega

theorem Join_plain_elems (p : Path) (name : GoString) (h : PlainName name) :
    (Join p name).elems ≠ [] := by
  rw [Join_plain p name h]
  simp

/-- Every name that `os.ReadDir` returns is one a directory can hold. -/
theorem MemFS.readDir_plain (fs : MemFS) (P : Path) (L : List DirEntry)
    (h : MemFS.readDir fs P = Except.ok L) (x : DirEntry) (hx : x ∈ L) : PlainName x.name := by
  unfold MemFS.readDir at h
  split at h
  · cases h
  · cases h
  · cases h
    rw [(insertionSort_perm _ _).mem_iff] at hx
    obtain ⟨e, he, rfl⟩ := List.mem_map.mp hx
    have := (List.mem_filter.mp he).2
    simp only [decide_eq_true_eq] at this
    exact this.2.2

/-- What the two calls of a visit that went well do to the nodes. -/
theorem block_nodes (fs fs1 fs2 : MemFS) (src dir : Path) (name : GoString) (hn : PlainName name)
    (hsrc : src.elems ≠ []) (hmk : MemFS.mkdirAll fs dir = Except.ok fs1)
    (hre : MemFS.rename fs1 src (Join dir name) = Except.ok fs2) :
    (∃ s m, fs.node src = some (Node.file s m) ∧ fs2.node (Join dir name) = some (Node.file s m)) ∧
    (∃ w, fs2.node dir = some (Node.dir w)) ∧
    (∀ p w, fs.node p = some (Node.dir w) → fs2.node p = some (Node.dir w)) ∧
    (∀ q, q ≠ src → q ≠ Join dir name → ∀ x, fs.node q = some x → fs2.node q = some x) ∧
    (∀ q x, q ≠ Join dir name → fs2.node q = some x → fs.node q = some x ∨ x = Node.dir true) ∧
    (src ≠ Join dir name → fs2.node src = none) := by
  obtain ⟨⟨w, hdir⟩, hkeep, hnew⟩ := MemFS.mkdirAllAux_ok _ fs fs1 dir hmk
  obtain ⟨⟨s, m, hfile⟩, hdst, hgone, hother⟩ :=
    MemFS.rename_ok fs1 fs2 src (Join dir name) hsrc (Join_plain_elems dir name hn) hre
  have hnodir : ∀ w1, fs1.node (Join dir name) ≠ some (Node.dir w1) := by
    intro w1 hw
    unfold MemFS.rename at hre
    rw [hfile] at hre
    simp only [] at hre
    split at hre
    · cases hre
    · cases hre
    · split at hre
      · cases hre
      · rw [hw] at hre
        simp only [] at hre
        cases hre
  have hfile0 : fs.node src = some (Node.file s m) := by
    rcases hnew src _ hfile with h | h
    · exact h
    · cases h
  refine ⟨⟨s, m, hfile0, by rw [hdst, hfile]⟩, ⟨w, ?_⟩, ?_, ?_, ?_, hgone⟩
  · rw [hother dir (by intro e; rw [e, hfile] at hdir; cases hdir)
      (fun e => Join_plain_ne dir name hn e.symm)]
    exact hdir
  · intro p w1 hp
    have hp1 := hkeep p _ hp
    rw [hother p (by intro e; rw [e, hfile] at hp1; cases hp1)
      (by intro e; rw [e] at hp1; exact hnodir w1 hp1)]
    exact hp1
  · intro q hq1 hq2 x hx
    rw [hother q hq1 hq2]
    exact hkeep q x hx
  · intro q x hq hx
    by_cases hqs : q = src
    · by_cases hsd : src = Join dir name
      · exact absurd (hqs.trans hsd) hq
      · rw [hqs, hgone hsd] at hx
        cases hx
    · rw [hother q hqs hq] at hx
      exact hnew q x hx

/-- What a visit recorded in a trace does to the nodes, with the names of the
visit: the entry has a name a directory can hold, so the file is taken from
`top` and put into `top/folder`. -/
theorem visit_nodes (fs fs1 fs2 fsL : MemFS) (top : Path) (entries : List DirEntry) (d : DirEntry)
    (folder : GoString) (hr : memOS.readDir fsL top = Except.ok entries) (hm : d ∈ entries)
    (hmk : memOS.mkdirAll fs (Join (Dir (Join top d.name)) folder) = Except.ok fs1)
    (hre : memOS.rename fs1 (Join top d.name)
      (Join (Join (Dir (Join top d.name)) folder) d.name) = Except.ok fs2) :
    PlainName d.name ∧ Dir (Join top d.name) = top ∧
    (∃ s m, fs.node (Join top d.name) = some (Node.file s m) ∧
      fs2.node (Join (Join top folder) d.name) = some (Node.file s m)) ∧
    (∃ w, fs2.node (Join top folder) = some (Node.dir w)) ∧
    (∀ p w, fs.node p = some (Node.dir w) → fs2.node p = some (Node.dir w)) ∧
    (∀ q, q ≠ Join top d.name → q ≠ Join (Join top folder) d.name →
      ∀ x, fs.node q = some x → fs2.node q = some x) ∧
    (∀ q x, q ≠ Join (Join top folder) d.name → fs2.node q = some x →
      fs.node q = some x ∨ x = Node.dir true) ∧
    (Join top d.name ≠ Join (Join top folder) d.name → fs2.node (Join top d.name) = none) := by
  have hn : PlainName d.name := MemFS.readDir_plain fsL top entries hr d hm
  have hD : Dir (Join top d.name) = top := Dir_Join_plain top d.name hn
  rw [hD] at hmk hre
  exact ⟨hn, hD, block_nodes fs fs1 fs2 (Join top d.name) (Join top folder) d.name hn
    (Join_plain_elems top d.name hn) hmk hre⟩

/-- A file that was put at `parent/folder/name` stays there to the end of the
trace, if no later rename starts there and no later rename can end there: the
file it would take from `parent/name` is gone, or no later rename starts at
`parent/name`. -/
theorem Moves.after (category : MemFS → Path → DirEntry → Except GoString GoString)
    (hplain : ∀ fs p d folder, category fs p d = Except.ok folder → PlainName folder)
    (parent : Path) (name folder : GoString) (hn : PlainName name) (hf : PlainName folder)
    (n : Node) (fs : MemFS) (evs : List Event) (fs1 : MemFS)
    (h : Moves memOS category fs evs fs1) :
    evs.Pairwise (fun a b => a.movesOn b = false) →
    (∀ dst, Event.renamed (Join (Join parent folder) name) dst ∉ evs) →
    ((∀ s m, fs.node (Join parent name) ≠ some (Node.file s m)) ∨
      ∀ dst, Event.renamed (Join parent name) dst ∉ evs) →
    fs.node (Join (Join parent folder) name) = some n →
    fs1.node (Join (Join parent folder) name) = some n := by
  induction h with
  | done fs => exact fun _ _ _ h => h
  | visit fs fsa fsb fsc fsL top entries d folder1 rest hr hm hd hc hmk hre _ ih =>
    intro hpair hsrc hq hnode
    obtain ⟨hdn, hD, ⟨s, m, hfile, _⟩, _, _, hother, hnew, _⟩ :=
      visit_nodes fs fsa fsb fsL top entries d folder1 hr hm hmk hre
    have hf1 : PlainName folder1 := hplain _ _ _ _ hc
    rw [hD] at hsrc hq hpair
    have hpair1 := (List.pairwise_cons.mp (List.pairwise_cons.mp hpair).2)
    have ht1 : Join (Join parent folder) name ≠ Join top d.name := by
      intro e
      exact hsrc (Join (Join top folder1) d.name) (by rw [e]; simp)
    have ht2 : Join (Join parent folder) name ≠ Join (Join top folder1) d.name := by
      intro e
      obtain ⟨e1, e2⟩ := Join_plain_inj _ _ _ _ hn hdn e
      obtain ⟨e3, _⟩ := Join_plain_inj _ _ _ _ hf hf1 e1
      rcases hq with hq | hq
      · exact hq s m (by rw [e3, e2]; exact hfile)
      · exact hq (Join (Join top folder1) d.name) (by rw [e3, e2]; simp)
    refine ih hpair1.2 (fun dst hmem => hsrc dst (by simp [hmem])) ?_
      (hother _ ht1 ht2 _ hnode)
    by_cases hqd : Join parent name = Join (Join top folder1) d.name
    · right
      intro dst hmem
      have := hpair1.1 _ hmem
      simp [Event.movesOn, hqd] at this
    · rcases hq with hq | hq
      · left
        intro s1 m1 h1
        rcases hnew _ _ hqd h1 with h2 | h2
        · exact hq s1 m1 h2
        · cases h2
      · right
        exact fun dst hmem => hq dst (by simp [hmem])

end Simonsays
